import Mathlib

/-!
# Verification of the Primate generic data-access layer

A shallow embedding, in Lean 4, of the core of the Primate framework
(an Express/Prisma "metadata-driven request-to-query compiler"):

* the relation-inference engine of `src/prisma/orm.js`
  (`generatePrismaOrmObject`, `addManyToManyRelations`,
  `addOneToManyRelations`);
* the generic service of `generics/service.js` (`PrimateService`):
  payload sanitization, the create/update mutation builders with their
  relation connect/disconnect handling, identifier resolution
  (`resolveWhere`, `resolveId`), and the query-object builder of the
  list operation (`all`).

JavaScript runtime values appearing in payloads and query bags are
modelled by the inductive type `PValue`; JS objects are modelled as
association lists in insertion order, with property update keeping the
position of an existing key and appending a fresh one, as JS engines do.
The storage backend (Prisma client) is external to the repository: calls
into it are abstracted as parameters, and where a claim talks about the
backend's observable behaviour (row counting, connect/disconnect
semantics) a definition explicitly marked as modelled from the spec
provides that interface semantics.
-/

set_option maxRecDepth 10000

namespace Primate

/-- JavaScript runtime values as they occur in request payloads and query
bags: strings, numbers (the integers used by this layer), booleans, `NaN`,
`undefined`, arrays and plain objects.  Objects and arrays are modelled
structurally; `jsStrictEq` below accounts for the fact that `===` on two
separately constructed objects is reference inequality. -/
inductive PValue where
  | pStr (s : String)
  | pNum (n : Int)
  | pBool (b : Bool)
  | pNaN
  | pUndefined
  | pList (items : List PValue)
  | pObj (props : List (String × PValue))
  deriving Repr

/-- JS property read on an object literal: the value at the first matching
key, `none` when absent. -/
def getA {α : Type} (l : List (String × α)) (k : String) : Option α :=
  match l with
  | [] => none
  | (k2, v) :: rest => if k2 = k then some v else getA rest k

/-- JS property assignment `o[k] = v`: an existing key keeps its position
and gets the new value, a fresh key is appended (JS insertion order). -/
def setA {α : Type} (l : List (String × α)) (k : String) (v : α) : List (String × α) :=
  match l with
  | [] => [(k, v)]
  | (k2, v2) :: rest => if k2 = k then (k, v) :: rest else (k2, v2) :: setA rest k v

/-- JS `delete o[k]`. -/
def delA {α : Type} (l : List (String × α)) (k : String) : List (String × α) :=
  l.filter (fun p => p.1 ≠ k)

/-- JS object spread `\x7b...a, ...b\x7d`: `a`'s keys first (shared keys
taking `b`'s value), then `b`'s fresh keys. -/
def spreadMerge {α : Type} (a b : List (String × α)) : List (String × α) :=
  (a.map (fun p => match getA b p.1 with | some v => (p.1, v) | none => p)) ++
    b.filter (fun p => (getA a p.1).isNone)

/-- JS truthiness of a value. -/
def truthyJS : PValue → Bool
  | .pStr s => s ≠ ""
  | .pNum n => n ≠ 0
  | .pBool b => b
  | .pNaN => false
  | .pUndefined => false
  | .pList _ => true
  | .pObj _ => true

mutual

/-- JS `String(v)` coercion, for the value shapes this layer feeds into
`parseInt` and computed keys (arrays join their elements with commas,
objects print as `[object Object]`). -/
def toStringJS : PValue → String
  | .pStr s => s
  | .pNum n => toString n
  | .pBool b => if b then "true" else "false"
  | .pNaN => "NaN"
  | .pUndefined => "undefined"
  | .pList items => toStringJSList items
  | .pObj _ => "[object Object]"

/-- `Array.prototype.toString`: elements joined with commas. -/
def toStringJSList : List PValue → String
  | [] => ""
  | [x] => toStringJS x
  | x :: y :: rest => toStringJS x ++ "," ++ toStringJSList (y :: rest)

end

/-- JS `s.includes(c)` on strings, via the character list. -/
def containsChar (s : String) (c : Char) : Bool :=
  s.data.contains c

/-- Splitting a character list on a separator character, keeping empty
segments (the behaviour of JS `String.prototype.split` with a one-char
separator). -/
def splitCharList (c : Char) : List Char → List (List Char)
  | [] => [[]]
  | x :: xs =>
    if x = c then [] :: splitCharList c xs
    else
      match splitCharList c xs with
      | [] => [[x]]
      | g :: gs => (x :: g) :: gs

/-- JS `s.split(c)` for a one-character separator. -/
def splitOnChar (s : String) (c : Char) : List String :=
  (splitCharList c s.data).map String.mk

/-- Whether `needle` occurs as a contiguous run of `hay`. -/
def isSubChars (needle : List Char) : List Char → Bool
  | [] => needle.isEmpty
  | x :: rest => needle.isPrefixOf (x :: rest) || isSubChars needle rest

/-- JS `s.startsWith(p)`. -/
def startsWithStr (s p : String) : Bool :=
  p.data.isPrefixOf s.data

/-- `s` with its first `n` characters removed. -/
def dropStr (s : String) (n : Nat) : String :=
  String.mk (s.data.drop n)

/-- Leading decimal-integer parse of a character list: optional sign, then
a non-empty digit prefix; `none` when no digit follows. -/
def parseIntCore (cs : List Char) : Option Int :=
  let cs := cs.dropWhile (fun c => c = ' ' ∨ c = '\t' ∨ c = '\n')
  let (neg, cs) :=
    match cs with
    | '-' :: rest => (true, rest)
    | '+' :: rest => (false, rest)
    | _ => (false, cs)
  let digits := cs.takeWhile Char.isDigit
  if digits.isEmpty then none
  else
    let n : Nat := digits.foldl (fun acc c => acc * 10 + (c.toNat - '0'.toNat)) 0
    some (if neg then -(n : Int) else (n : Int))

/-- JS `parseInt(v, 10)`: the argument is coerced to a string and its
leading integer is taken; the result is a number, or `NaN` when no digits
lead the string. -/
def parseIntJS (v : PValue) : PValue :=
  match parseIntCore (toStringJS v).data with
  | some n => .pNum n
  | none => .pNaN

/-- JS strict equality `===` restricted to the comparisons performed by
this layer: structural on primitives, `NaN === NaN` is false,
`undefined === undefined` is true, and two separately constructed
objects/arrays compare unequal (reference inequality). -/
def jsStrictEq : PValue → PValue → Bool
  | .pStr a, .pStr b => a = b
  | .pNum a, .pNum b => a = b
  | .pBool a, .pBool b => a = b
  | .pUndefined, .pUndefined => true
  | _, _ => false

/-- JS member access `v.k`, yielding `undefined` for a missing property or
a non-object receiver. -/
def getProp (v : PValue) (k : String) : PValue :=
  match v with
  | .pObj props => (getA props k).getD .pUndefined
  | _ => .pUndefined

/-- JS `v.hasOwnProperty(k)` for the receivers this layer probes. -/
def hasOwnJS (v : PValue) (k : String) : Bool :=
  match v with
  | .pObj props => (getA props k).isSome
  | _ => false

/-- JS `typeof v === 'object'` (true for arrays as well). -/
def isObjectJS : PValue → Bool
  | .pObj _ => true
  | .pList _ => true
  | _ => false

/-- `s.charAt(0).toLowerCase() + s.slice(1)`, the camel-casing used for
entity keys in `src/prisma/orm.js`. -/
def lowerFirst (s : String) : String :=
  match s.data with
  | [] => s
  | c :: cs => String.mk (c.toLower :: cs)

/-- `s.charAt(0).toUpperCase() + s.slice(1)` from `addOneToManyRelations`. -/
def upperFirst (s : String) : String :=
  match s.data with
  | [] => s
  | c :: cs => String.mk (c.toUpper :: cs)

/-! ## The model metadata store and relation-inference engine
(`src/prisma/orm.js`) -/

/-- A relation descriptor as recorded by the inference engine: either
`\x7btype: 'one-to-many', model, field\x7d` or
`\x7btype: 'many-to-many', model, plural\x7d`. -/
inductive Rel where
  | oneToMany (model : String) (field : String)
  | manyToMany (model : String) (plural : String)
  deriving DecidableEq, Repr

/-- One model of the Prisma data model (`Prisma.dmmf.datamodel.models`
entry): its name and its ordered field list with declared types. -/
structure PModel where
  name : String
  fields : List (String × String)
  deriving DecidableEq, Repr

/-- The whole introspected data model. -/
abbrev Schema := List PModel

/-- One entry of the ORM object `obj[camelCaseModelName]`: a JS object
whose keys are the model's field names (values: the field type) plus, once
inference has added it, the key `relations` (value: the relation map).
The two kinds of key are kept in separate components; this is faithful for
every schema in which no field is literally named `relations` (on such a
schema the JS code throws at startup when it tries to assign into the
string stored under `relations`, so no descriptor map exists at all). -/
structure Entity where
  fields : List (String × String)
  relations : Option (List (String × Rel))
  deriving Repr

/-- The ORM object: camel-cased model name to entity object. -/
abbrev Orm := List (String × Entity)

/-- The declared field names of an entity, in order. -/
def fieldKeys (e : Entity) : List String :=
  e.fields.map Prod.fst

/-- The relation map of an entity (`obj[model].relations`), empty when not
yet created. -/
def relMap (e : Entity) : List (String × Rel) :=
  e.relations.getD []

/-- JS truthiness of `obj[model][k]`: the stored field type for a field
key, the relation map (an object, hence truthy) for `relations`,
`undefined` otherwise. -/
def entGet (e : Entity) (k : String) : Bool :=
  if k = "relations" then e.relations.isSome
  else
    match getA e.fields k with
    | some t => t ≠ ""
    | none => false

/-- JS `obj[model].hasOwnProperty(k)`. -/
def entHas (e : Entity) (k : String) : Bool :=
  if k = "relations" then e.relations.isSome
  else (getA e.fields k).isSome

/-- JS `Object.keys(obj[model])`: field names in insertion order, then
`relations` once inference has added it. -/
def entKeys (e : Entity) : List String :=
  fieldKeys e ++ (if e.relations.isSome then ["relations"] else [])

/-- `obj[model].relations[target] = r` (creating the `relations` object
when still undefined). -/
def setRel (e : Entity) (target : String) (r : Rel) : Entity :=
  { e with relations := some (setA (relMap e) target r) }

/-- The truthiness of the stored type of a field key. -/
def typeTruthy (fs : List (String × String)) (k : String) : Bool :=
  match getA fs k with
  | some t => t ≠ ""
  | none => false

/-- The per-model field map `obj[camelCaseModelName]` as built by
`generatePrismaOrmObject` lines 44-49: every field assigned in order
(`obj[m][fieldName] = field.type`). -/
def buildFieldMap (fs : List (String × String)) : List (String × String) :=
  fs.foldl (fun acc f => setA acc f.1 f.2) []

/-- The entity object before inference: field map only. -/
def buildEntity (m : PModel) : Entity :=
  ⟨buildFieldMap m.fields, none⟩

/-- `generatePrismaOrmObject` lines 38-51: one entry per model with a
truthy name, keyed by the camel-cased model name. -/
def buildBaseOrm (s : Schema) : Orm :=
  s.foldl (fun obj m => if m.name ≠ "" then setA obj (lowerFirst m.name) (buildEntity m) else obj) []

/-- The body of the `models.forEach(otherModel => ...)` callback of
`addManyToManyRelations` (orm.js lines 70-89), for one `otherModel`.  The
pluralization function `pl` stands for the external `pluralize` library. -/
def m2mStep (pl : String → String) (obj : Orm) (model otherModel : String) : Orm :=
  if model ≠ otherModel then
    let otherModelPlural := pl otherModel
    let otherModelPluralCamelCase := lowerFirst otherModelPlural
    let modelPlural := pl model
    let modelPluralCamelCase := lowerFirst modelPlural
    match getA obj model, getA obj otherModel with
    | some me, some oe =>
      if entGet me otherModelPluralCamelCase && entGet oe modelPluralCamelCase then
        setA obj model (setRel me otherModel (Rel.manyToMany otherModel otherModelPlural))
      else obj
    | _, _ => obj
  else obj

/-- `addManyToManyRelations(obj, models, model)` (orm.js lines 69-90). -/
def addManyToManyRelations (pl : String → String) (obj : Orm) (models : List String)
    (model : String) : Orm :=
  match models with
  | [] => obj
  | om :: rest => addManyToManyRelations pl (m2mStep pl obj model om) rest model

/-- `obj[model].relations[otherModel] = \x7btype: 'one-to-many', ...\x7d`
(orm.js lines 108-116). -/
def o2mWrite (obj : Orm) (model otherModel field : String) : Orm :=
  match getA obj model with
  | some me => setA obj model (setRel me otherModel (Rel.oneToMany otherModel field))
  | none => obj

/-- The inner `Object.keys(obj[otherModel]).forEach(otherField => ...)`
loop of `addOneToManyRelations` (orm.js lines 106-118). -/
def o2mInnerLoop (pl : String → String) (obj : Orm) (model otherModel field : String) :
    List String → Orm
  | [] => obj
  | otherField :: rest =>
    if otherField ≠ "relations" ∧ otherField = pl model then
      o2mInnerLoop pl (o2mWrite obj model otherModel field) model otherModel field rest
    else
      o2mInnerLoop pl obj model otherModel field rest

/-- The `Object.keys(obj[model]).forEach(field => ...)` loop of
`addOneToManyRelations` (orm.js lines 102-120), for a fixed `otherModel`;
the inner key list is snapshotted at the moment the owning-field test
succeeds, as in the source. -/
def o2mFieldLoop (pl : String → String) (obj : Orm) (model otherModel : String) :
    List String → Orm
  | [] => obj
  | field :: rest =>
    let otherModelCamelCase := upperFirst otherModel
    if field ≠ "relations" ∧ field = "id" ++ otherModelCamelCase then
      match getA obj otherModel with
      | some oe =>
        o2mFieldLoop pl (o2mInnerLoop pl obj model otherModel field (entKeys oe)) model
          otherModel rest
      | none => o2mFieldLoop pl obj model otherModel rest
    else o2mFieldLoop pl obj model otherModel rest

/-- The body of the `models.forEach(otherModel => ...)` callback of
`addOneToManyRelations` (orm.js lines 100-122) for one `otherModel`. -/
def o2mStep (pl : String → String) (obj : Orm) (model otherModel : String) : Orm :=
  if model ≠ otherModel then
    match getA obj model with
    | some me => o2mFieldLoop pl obj model otherModel (entKeys me)
    | none => obj
  else obj

/-- `addOneToManyRelations(obj, models, model)` (orm.js lines 99-123). -/
def addOneToManyRelations (pl : String → String) (obj : Orm) (models : List String)
    (model : String) : Orm :=
  match models with
  | [] => obj
  | om :: rest => addOneToManyRelations pl (o2mStep pl obj model om) rest model

/-- The `models.forEach(model => \x7b addManyToManyRelations(...);
addOneToManyRelations(...) \x7d)` loop of `generatePrismaOrmObject`
(orm.js lines 54-57). -/
def inferLoop (pl : String → String) (obj : Orm) (models : List String) :
    List String → Orm
  | [] => obj
  | m :: rest =>
    inferLoop pl (addOneToManyRelations pl (addManyToManyRelations pl obj models m) models m)
      models rest

/-- `generatePrismaOrmObject()` (orm.js lines 31-60): build the field maps
from the data model, then run both relation-inference passes over every
model.  The external `pluralize` library is abstracted as the parameter
`pl`. -/
def generatePrismaOrmObject (pl : String → String) (s : Schema) : Orm :=
  let obj := buildBaseOrm s
  let models := obj.map Prod.fst
  inferLoop pl obj models models

/-- The relation recorded on `model` under key `target`, if any. -/
def getRelation (obj : Orm) (model target : String) : Option Rel :=
  match getA obj model with
  | some e => getA (relMap e) target
  | none => none

/-- The pluralization used in all concrete scenarios below: plain "-s"
suffixing, which agrees with the `pluralize` library on the regular nouns
involved (`user`, `team`, `post`, `tag`, `thing`). -/
def plS (s : String) : String := s ++ "s"

/-! ## The generic service (`generics/service.js`, `PrimateService`)

The embedding below follows the current, documented variant of the
service (the one the specification describes); where the older historical
variant kept in the repository differs on a claim, both behaviours are
embedded and the divergence is stated.  The Prisma client is external:
its calls are abstracted as parameters or `Except` results. -/

/-- A JS payload / query bag: an object of `PValue`s. -/
abbrev Payload := List (String × PValue)

/-- `PrimateService.sanitizeData(data, model)` (service lines 471-495):
after validating the arguments and looking the model up in the ORM
object, every payload entry whose key the model object does not own is
deleted (with a logged warning).  Note the ownership test is against the
model *object*, whose keys are the declared fields plus — once inference
has recorded any relation on the model — the key `relations`. -/
def sanitizeData (orm : Orm) (data : Payload) (model : String) : Except String Payload :=
  if model = "" then .error "The model parameter must be a non-empty string."
  else
    match getA orm model with
    | none => .error ("Model " ++ model ++ " not found in PrismaOrmObject.")
    | some e => .ok (data.filter (fun p => entHas e p.1))

/-- One many-to-many connect entry of `create` (service lines 59-63):
an object item carrying an `id` connects by `parseInt(item.id, 10)`, any
other item by `parseInt(item, 10)`. -/
def createConnectItem (item : PValue) : PValue :=
  if isObjectJS item ∧ hasOwnJS item "id" then .pObj [("id", parseIntJS (getProp item "id"))]
  else .pObj [("id", parseIntJS item)]

/-- The relation-processing loop of `create` (service lines 43-68): a
truthy one-to-many owning field is replaced by a
`\x7bconnect: \x7bid: parseInt(...)\x7d\x7d` directive under the target
model's key; a truthy array under a many-to-many plural field is replaced
by a connect list. -/
def createRelLoop : List (String × Rel) → Payload → Payload
  | [], data => data
  | (_, rd) :: rest, data =>
    match rd with
    | .oneToMany rmodel rfield =>
      let v := (getA data rfield).getD .pUndefined
      let data :=
        if truthyJS v then
          delA (setA data rmodel (.pObj [("connect", .pObj [("id", parseIntJS v)])])) rfield
        else data
      createRelLoop rest data
    | .manyToMany _ rplural =>
      let data :=
        match getA data rplural with
        | some (.pList items) =>
          setA data rplural (.pObj [("connect", .pList (items.map createConnectItem))])
        | _ => data
      createRelLoop rest data

/-- The `options.upsertRules` slugify pass of `create` (service lines
74-82); the external `slugify` library is the parameter `slug`. -/
def upsertLoop (slug : String → String) : List (String × Option String) → Payload → Payload
  | [], data => data
  | (field, rule) :: rest, data =>
    match rule with
    | some src =>
      let v := (getA data src).getD .pUndefined
      if truthyJS v then
        upsertLoop slug rest (setA data field (.pStr (slug (toStringJS v))))
      else upsertLoop slug rest data
    | none => upsertLoop slug rest data

/-- Options of `PrimateService.create` relevant to the mutation builder. -/
structure CreateOptions where
  filterCreateData : Option (Payload → String → Payload) := none
  upsertRules : List (String × Option String) := []

/-- The pure payload pipeline of `PrimateService.create(data, model,
options)` (service lines 28-84): validate the model name, lower-case its
first letter, run the optional `filterCreateData` hook, rewrite relation
fields into connect directives, sanitize, apply upsert rules.  The final
payload is exactly the `data` handed to `prisma[model].create(\x7b data
\x7d)`. -/
def createData (orm : Orm) (model : String) (data : Payload) (opts : CreateOptions)
    (slug : String → String) : Except String Payload :=
  if model = "" then .error "Model is required to create an item."
  else
    let model := lowerFirst model
    let data :=
      match opts.filterCreateData with
      | some f => f data model
      | none => data
    match getA orm model with
    | none => .error ("Model " ++ model ++ " not found in PrismaOrmObject.")
    | some e =>
      match sanitizeData orm (createRelLoop (relMap e) data) model with
      | .error msg => .error msg
      | .ok data => .ok (upsertLoop slug opts.upsertRules data)

/-- The many-to-many reconciliation of `update` (service lines 137-189)
for one relation, given the current related records fetched from storage
(`entity[relationData.plural]`): the records whose `id` is matched (`===`)
by no incoming item are collected for disconnection, the incoming list is
mapped wholesale into a connect list, and a `disconnect` key is added only
when some record must be disconnected. -/
def updateM2MDirective (items : List PValue) (current : List PValue) : PValue :=
  let isObjList :=
    match items.head? with
    | some h => isObjectJS h && hasOwnJS h "id"
    | none => false
  let elementsToDisconnect :=
    if isObjList then
      (current.filter
          (fun el => ¬ items.any (fun e2 => jsStrictEq (getProp e2 "id") (getProp el "id")))).map
        (fun el => PValue.pObj [("id", getProp el "id")])
    else
      (current.filter (fun el => ¬ items.any (fun e2 => jsStrictEq e2 (getProp el "id")))).map
        (fun el => PValue.pObj [("id", getProp el "id")])
  let connect :=
    if isObjList then items.map (fun item => PValue.pObj [("id", parseIntJS (getProp item "id"))])
    else items.map (fun item => PValue.pObj [("id", parseIntJS item)])
  .pObj ([("connect", .pList connect)] ++
    (if elementsToDisconnect.isEmpty then [] else [("disconnect", .pList elementsToDisconnect)]))

/-- The relation-processing loop of `update` (service lines 124-192).
`fetchSelect plural` stands for the
`prisma[model].findUnique(\x7b..., select: \x7b[plural]: true\x7d\x7d)`
read of the record's current related rows. -/
def updateRelLoop (fetchSelect : String → List PValue) : List (String × Rel) → Payload → Payload
  | [], data => data
  | (_, rd) :: rest, data =>
    match rd with
    | .oneToMany rmodel rfield =>
      let v := (getA data rfield).getD .pUndefined
      let data :=
        if truthyJS v then
          delA (setA data rmodel (.pObj [("connect", .pObj [("id", parseIntJS v)])])) rfield
        else data
      updateRelLoop fetchSelect rest data
    | .manyToMany _ rplural =>
      let data :=
        match getA data rplural with
        | some (.pList items) =>
          setA data rplural (updateM2MDirective items (fetchSelect rplural))
        | _ => data
      updateRelLoop fetchSelect rest data

/-- The pure payload pipeline of `PrimateService.update(id, data, model,
options)` (service lines 105-195), up to the `prisma[model].update` call:
lower-case the model, diff/rewrite relation fields, sanitize.  Identifier
resolution for the `where` clause is embedded separately (`resolveWhere`,
`resolveId`). -/
def updateBuildData (orm : Orm) (model : String) (data : Payload)
    (fetchSelect : String → List PValue) : Except String Payload :=
  if model = "" then .error "Model is required to update an item."
  else
    let model := lowerFirst model
    match getA orm model with
    | none => .error ("TypeError: cannot read relations of undefined model " ++ model)
    | some e => sanitizeData orm (updateRelLoop fetchSelect (relMap e) data) model

/-- `PrimateService.getORMObject(model)` (service lines 616-627). -/
def getORMObject (orm : Orm) (model : String) : Except String Entity :=
  if model = "" then .error "The model parameter must be a non-empty string."
  else
    match getA orm model with
    | none => .error ("Model " ++ model ++ " not found in PrismaOrmObject.")
    | some e => .ok e

/-- `PrimateService.resolveId(id, model)` (service lines 637-659): when
the model's `id` field is declared `Int` the identifier must parse as an
integer; otherwise it is passed through untouched. -/
def resolveId (orm : Orm) (id : PValue) (model : String) : Except String PValue :=
  if ¬ truthyJS id then .error "ID is required to resolve."
  else if model = "" then .error "The model parameter must be a non-empty string."
  else
    match getORMObject orm model with
    | .error msg => .error msg
    | .ok e =>
      if getA e.fields "id" = some "Int" then
        match parseIntJS id with
        | .pNum n => .ok (.pNum n)
        | _ => .error ("ID " ++ toStringJS id ++ " is not a valid integer.")
      else .ok id

/-- `PrimateService.resolveWhere(id, model)` (service lines 579-607): a
numeric-parsing identifier filters on the primary key `id`; a
non-numeric one filters on `uid` when the model declares that field and
otherwise raises an error.  (The older historical variant of this
function, `generics/service.js` lines 454-468, silently returns an empty
`where` object in that last case instead of throwing.) -/
def resolveWhere (orm : Orm) (id : PValue) (model : String) : Except String Payload :=
  if ¬ truthyJS id then .error "ID is required to resolve where clause."
  else if model = "" then .error "The model parameter must be a non-empty string."
  else
    match getA orm model with
    | none => .error ("Model " ++ model ++ " not found in PrismaOrmObject.")
    | some e =>
      match parseIntJS id with
      | .pNaN =>
        if entHas e "uid" then .ok [("uid", id)]
        else .error ("Model " ++ model ++ " does not have a uid field.")
      | _ =>
        match resolveId orm id model with
        | .error msg => .error msg
        | .ok v => .ok [("id", v)]

/-! ### The list operation (`PrimateService.all`, service lines 256-382) -/

/-- A Prisma `where` condition value as built by `all`: a plain equality
value, an `\x7bin: [...]​\x7d` membership filter, a `\x7bhas: [...]​\x7d`
filter, a `\x7bcontains: q\x7d` filter, a nested
`\x7bsubfield: \x7bcontains: q\x7d\x7d` filter under a relation key, or
the `OR` list of single-key clauses built for free-text search. -/
inductive WVal where
  | wEq (v : PValue)
  | wIn (parts : List String)
  | wHas (parts : List String)
  | wContains (q : PValue)
  | wNestContains (sub : String) (q : PValue)
  | wOr (clauses : List (String × WVal))
  deriving Repr

/-- The query object handed to `prisma[model].count`: the accumulated
`where` entries plus the single-field `orderBy`. -/
structure QueryObject where
  whereEntries : List (String × WVal)
  orderKey : String
  orderVal : PValue
  deriving Repr

/-- The caller options of `all` that shape the query object. -/
structure AllOptions where
  queryableFields : Option (List String) := none
  whereOpt : List (String × WVal) := []
  filterAllQuery : Option (Payload → QueryObject → Option QueryObject) := none

/-- Destructuring default: `let \x7bk = d\x7d = query` takes the default
exactly when the property is absent or `undefined`. -/
def qget (query : Payload) (k : String) (dflt : PValue) : PValue :=
  match getA query k with
  | some .pUndefined => dflt
  | some v => v
  | none => dflt

/-- JS `v.includes(c)`: substring test on strings, strict-equality element
test on arrays, a `TypeError` on anything else. -/
def includesJS (v : PValue) (c : Char) : Except String Bool :=
  match v with
  | .pStr s => .ok (containsChar s c)
  | .pList items => .ok (items.any (fun it => jsStrictEq it (.pStr (String.mk [c]))))
  | _ => .error "TypeError: includes is not a function"

/-- JS `v.split(c)`: only strings can be split. -/
def splitJS (v : PValue) (c : Char) : Except String (List String) :=
  match v with
  | .pStr s => .ok (splitOnChar s c)
  | _ => .error "TypeError: split is not a function"

/-- The `options.queryableFields.forEach` loop of the free-text search
(service lines 283-292): a declared field becomes a `contains` clause,
a dotted `relation.field` whose relation the model owns becomes a nested
`contains` clause. -/
def buildOrClauses (e : Entity) (q : PValue) : List String → List (String × WVal)
  | [] => []
  | field :: rest =>
    if entHas e field then (field, .wContains q) :: buildOrClauses e q rest
    else
      if containsChar field '.' then
        let parts := splitOnChar field '.'
        let relation := (parts.get? 0).getD ""
        let subfield := (parts.get? 1).getD ""
        if entHas e relation then (relation, .wNestContains subfield q) :: buildOrClauses e q rest
        else buildOrClauses e q rest
      else buildOrClauses e q rest

/-- The `if(q)` free-text-search branch of `all` (service lines 272-294):
with queryable fields configured, `where.OR` collects an exact primary-key
clause (when `q` parses as an integer) followed by the per-field
`contains` clauses. -/
def qClause (orm : Orm) (model : String) (opts : AllOptions) (q : PValue)
    (w : List (String × WVal)) : Except String (List (String × WVal)) :=
  if truthyJS q then
    match opts.queryableFields with
    | some qf =>
      match getA orm model with
      | none => .error ("Model " ++ model ++ " not found in PrismaOrmObject.")
      | some e =>
        let idClause :=
          match parseIntJS q with
          | .pNum n => [("id", WVal.wEq (.pNum n))]
          | _ => []
        .ok (setA w "OR" (.wOr (idClause ++ buildOrClauses e q qf)))
    | none => .ok w
  else .ok w

/-- One step of the direct-field-filter loop of `all` (service lines
300-318): a truthy query value on a model key becomes an `in` filter when
it contains a comma, a `has` filter when it contains a pipe, and an
equality filter otherwise; a falsy or absent value adds nothing. -/
def fieldFilterStep (query : Payload) (w : List (String × WVal)) (field : String) :
    Except String (List (String × WVal)) :=
  match getA query field with
  | none => .ok w
  | some v =>
    if truthyJS v then
      match includesJS v ',' with
      | .error msg => .error msg
      | .ok true =>
        match splitJS v ',' with
        | .error msg => .error msg
        | .ok parts => .ok (setA w field (.wIn parts))
      | .ok false =>
        match includesJS v '|' with
        | .error msg => .error msg
        | .ok true =>
          match splitJS v '|' with
          | .error msg => .error msg
          | .ok parts => .ok (setA w field (.wHas parts))
        | .ok false => .ok (setA w field (.wEq v))
    else .ok w

/-- The `Object.entries(PrismaOrmObject[model]).forEach(([field]) => ...)`
loop of `all` (service lines 300-318). -/
def fieldFilterLoop (query : Payload) (w : List (String × WVal)) :
    List String → Except String (List (String × WVal))
  | [] => .ok w
  | field :: rest =>
    match fieldFilterStep query w field with
    | .error msg => .error msg
    | .ok w2 => fieldFilterLoop query w2 rest

/-- The query object built by `PrimateService.all(model, query, options)`
(service lines 256-329): defaults and `orderBy`, the free-text `q`
clause, the direct field filters, the merge of `options.where` under the
derived filters, and the optional wholesale `filterAllQuery` replacement.
This object is exactly the argument of `prisma[model].count` on line
332. -/
def buildQueryObject (orm : Orm) (model : String) (query : Payload) (opts : AllOptions) :
    Except String QueryObject :=
  if model = "" then .error "Model is required to get items."
  else
    let by0 := qget query "by" (.pStr "id")
    let order := qget query "order" (.pStr "desc")
    let q := qget query "q" .pUndefined
    match qClause orm model opts q [] with
    | .error msg => .error msg
    | .ok w1 =>
      match getA orm model with
      | none => .error "TypeError: cannot convert undefined to object"
      | some e =>
        match fieldFilterLoop query w1 (entKeys e) with
        | .error msg => .error msg
        | .ok w2 =>
          let wMerged := spreadMerge opts.whereOpt w2
          let qo : QueryObject := ⟨wMerged, toStringJS by0, order⟩
          let qo :=
            match opts.filterAllQuery with
            | some f => (f query qo).getD qo
            | none => qo
          .ok qo

/-- The full plan of one `all` call: the count query, pagination
(`skip = (parseInt(page) - 1) * parseInt(limit)`, `take =
parseInt(limit)`), the count-only short-circuit flag, the filtered
`select` key list, and the `fetch-` relation include (service lines
331-369). -/
structure AllPlan where
  countQuery : QueryObject
  countOnly : Bool
  skipVal : PValue
  takeVal : PValue
  selectKeys : Option (List String)
  fetchInclude : Option String

/-- The `select` handling of `all` (service lines 349-360): a truthy
`select` is comma-split (a single field otherwise) and filtered to the
model's keys, dropping unknown fields with a warning. -/
def selectPart (e : Entity) (select : PValue) : Except String (Option (List String)) :=
  if truthyJS select then
    match includesJS select ',' with
    | .error msg => .error msg
    | .ok true =>
      match splitJS select ',' with
      | .error msg => .error msg
      | .ok sf => .ok (some (sf.filter (fun f => entHas e f)))
    | .ok false => .ok (some ([toStringJS select].filter (fun f => entHas e f)))
  else .ok none

/-- `PrimateService.all` up to the `findMany` arguments (service lines
256-369), with the backend `count`/`findMany` calls abstracted away. -/
def buildAllPlan (orm : Orm) (model : String) (query : Payload) (opts : AllOptions) :
    Except String AllPlan :=
  match buildQueryObject orm model query opts with
  | .error msg => .error msg
  | .ok qo =>
    match getA orm model with
    | none => .error "TypeError: cannot convert undefined to object"
    | some e =>
      let page := qget query "page" (.pNum 1)
      let limit := qget query "limit" (.pNum 100)
      let countQ := qget query "count" .pUndefined
      let select := qget query "select" .pUndefined
      let skipVal :=
        match parseIntJS page, parseIntJS limit with
        | .pNum a, .pNum b => PValue.pNum ((a - 1) * b)
        | _, _ => PValue.pNaN
      let takeVal := parseIntJS limit
      match selectPart e select with
      | .error msg => .error msg
      | .ok selectKeys =>
        let fetchKey := (query.map Prod.fst).find? (fun k => startsWithStr k "fetch-")
        let fetchInclude :=
          match fetchKey with
          | some fk => if entHas e (dropStr fk 6) then some (dropStr fk 6) else none
          | none => none
        .ok ⟨qo, truthyJS countQ, skipVal, takeVal, selectKeys, fetchInclude⟩

/-- The result envelope of `all`. -/
structure AllResult where
  rows : List Payload
  total : Int
  deriving Repr

/-- The row-retrieval tail of the *older historical* `all`
(`generics/service.js` lines 324-339): the `findMany` call is awaited
inside a `try` whose `catch` only logs the error, after which the
function falls through and resolves with `undefined` (modelled as
`none`).  A backend failure is therefore swallowed, not re-thrown. -/
def allRetrieveOld (findManyResult : Except String (List Payload)) (count : Int) :
    Option AllResult :=
  match findManyResult with
  | .ok rows => some ⟨rows, count⟩
  | .error _ => none

/-- The row-retrieval tail of the current `all` (service lines 371-381):
a backend failure is re-thrown to the caller as
`Error retrieving <model>: <message>`. -/
def allRetrieveNew (model : String) (findManyResult : Except String (List Payload))
    (count : Int) : Except String AllResult :=
  match findManyResult with
  | .ok rows => .ok ⟨rows, count⟩
  | .error msg => .error ("Error retrieving " ++ model ++ ": " ++ msg)

/-! ### Backend interface semantics, from the spec

The storage backend itself is outside the repository; the spec fixes its
interface (§6: `count(filterSpec)`, connect/disconnect directives).  The
two definitions below give it the semantics the spec describes, so that
value-level statements about counts and final related sets can be made. -/

mutual

/-- Modelled from the spec: whether a stored row satisfies one `where`
entry of a filter specification, for the backend `count`/`findMany`
primitives the spec assumes (§6).  Equality is structural on the scalar
values this layer stores; `in` means membership of the row's string value;
`has` means the row's list value contains every part; `contains` is
substring; `OR` is satisfaction of some clause. -/
def rowMatches (row : Payload) (k : String) : WVal → Bool
  | .wEq v => jsStrictEq ((getA row k).getD .pUndefined) v
  | .wIn parts =>
    match getA row k with
    | some (.pStr s) => parts.contains s
    | some (.pNum n) => parts.contains (toString n)
    | _ => false
  | .wHas parts =>
    match getA row k with
    | some (.pList items) => parts.all (fun p => items.any (fun it => jsStrictEq it (.pStr p)))
    | _ => false
  | .wContains q =>
    match getA row k, q with
    | some (.pStr s), .pStr qs => isSubChars qs.data s.data
    | _, _ => false
  | .wNestContains _ _ => false
  | .wOr clauses => rowMatchesOr row clauses

def rowMatchesOr (row : Payload) : List (String × WVal) → Bool
  | [] => false
  | c :: rest => rowMatches row c.1 c.2 || rowMatchesOr row rest

end

/-- Modelled from the spec: the backend `count(filterSpec)` primitive
(§6) — the number of stored rows satisfying every `where` entry of the
query object. -/
def evalCount (db : List Payload) (qo : QueryObject) : Int :=
  ((db.filter (fun r => qo.whereEntries.all (fun p => rowMatches r p.1 p.2))).length : Int)

/-- Modelled from the spec: the backend's connect/disconnect directive
semantics (glossary: attach or detach a related record by identifier).
After an update carrying a connect list and a disconnect list, an id is
related exactly when it was related and not disconnected, or is
connected. -/
def m2mFinalSet (current connect disconnect : List Int) (x : Int) : Bool :=
  (current.contains x && !(disconnect.contains x)) || connect.contains x

/-! ## Concrete scenarios used by the claims -/

/-- The `User`/`Team` data model of the spec's end-to-end scenario, with
exactly the fields the scenario names: `user` declares `name` and
`idTeam`, `team` declares `users`. -/
def userTeamSchema : Schema :=
  [⟨"user", [("name", "String"), ("idTeam", "Int")]⟩,
   ⟨"team", [("users", "User")]⟩]

/-- The ORM object inferred from `userTeamSchema`. -/
def userTeamOrm : Orm := generatePrismaOrmObject plS userTeamSchema

/-- The `User`/`Team` data model as a Prisma schema actually declares it:
the owning side carries the relation field `team` alongside the foreign
key `idTeam` (Prisma's DMMF lists relation fields among a model's
fields). -/
def userTeamSchemaFull : Schema :=
  [⟨"user", [("name", "String"), ("idTeam", "Int"), ("team", "Team")]⟩,
   ⟨"team", [("users", "User")]⟩]

/-- The ORM object inferred from `userTeamSchemaFull`. -/
def userTeamOrmFull : Orm := generatePrismaOrmObject plS userTeamSchemaFull

/-- A `Post`/`Tag` data model with a mutual pluralized pair
(`post.tags` / `tag.posts`), giving a many-to-many relation on both
sides. -/
def postTagSchema : Schema :=
  [⟨"post", [("id", "Int"), ("title", "String"), ("tags", "Tag")]⟩,
   ⟨"tag", [("id", "Int"), ("posts", "Post")]⟩]

/-- The ORM object inferred from `postTagSchema`. -/
def postTagOrm : Orm := generatePrismaOrmObject plS postTagSchema

def userTeamOverlapSchema : Schema :=
  [⟨"user", [("teams", "Team"), ("idTeam", "Int")]⟩,
   ⟨"team", [("users", "User")]⟩]

def userTeamOverlapOrm : Orm := generatePrismaOrmObject plS userTeamOverlapSchema

/-- A model declaring a `uid` field, for identifier resolution. -/
def pageSchema : Schema := [⟨"page", [("id", "Int"), ("uid", "String")]⟩]

/-- The ORM object inferred from `pageSchema`. -/
def pageOrm : Orm := generatePrismaOrmObject plS pageSchema

/-- A plain model used for the list-operation scenarios. -/
def thingSchema : Schema :=
  [⟨"thing", [("id", "Int"), ("status", "String"), ("tags", "String")]⟩]

/-- The ORM object inferred from `thingSchema`. -/
def thingOrm : Orm := generatePrismaOrmObject plS thingSchema

/-- A model that happens to declare a field named `limit`. -/
def limitFieldSchema : Schema := [⟨"thing", [("id", "Int"), ("limit", "String")]⟩]

/-- The ORM object inferred from `limitFieldSchema`. -/
def limitFieldOrm : Orm := generatePrismaOrmObject plS limitFieldSchema

/-- The stored record's current related rows for the update-diff
scenario: related-id set 1, 2, 3. -/
def c1Fetch : String → List PValue := fun _ =>
  [.pObj [("id", .pNum 1)], .pObj [("id", .pNum 2)], .pObj [("id", .pNum 3)]]

/-- The update payload of the diff scenario: desired related-id set
2, 3, 4 (plain ids). -/
def c1Payload : Payload := [("tags", .pList [.pNum 2, .pNum 3, .pNum 4])]

/-- The relation directive `update` builds for the `tags` field in the
diff scenario. -/
def c1Directive : PValue :=
  match updateBuildData postTagOrm "post" c1Payload c1Fetch with
  | .ok data => (getA data "tags").getD .pUndefined
  | .error _ => .pUndefined

/-- The ids of a directive's `connect` list. -/
def connectIds (v : PValue) : List Int :=
  match getProp v "connect" with
  | .pList items =>
    items.foldr
      (fun it acc => match getProp it "id" with | .pNum n => n :: acc | _ => acc) []
  | _ => []

/-- The ids of a directive's `disconnect` list (empty when the key is
absent). -/
def disconnectIds (v : PValue) : List Int :=
  match getProp v "disconnect" with
  | .pList items =>
    items.foldr
      (fun it acc => match getProp it "id" with | .pNum n => n :: acc | _ => acc) []
  | _ => []

/-- Whether an inferred relation lookup yielded a one-to-many
descriptor. -/
def isO2M : Option Rel → Bool
  | some (.oneToMany _ _) => true
  | _ => false

/-- The direct-field filter recorded for key `k` in a built query object
(`none` when the build failed or no filter was recorded). -/
def whereOf (r : Except String QueryObject) (k : String) : Option WVal :=
  match r with
  | .ok qo => getA qo.whereEntries k
  | .error _ => none

/-- Whether a recorded filter is the `has` ("contains all of") form. -/
def isHasFilter : Option WVal → Bool
  | some (.wHas _) => true
  | _ => false

/-- The field map of an ORM entry, when the entry exists. -/
def fieldsOf (obj : Orm) (k : String) : Option (List (String × String)) :=
  (getA obj k).map Entity.fields

/-- Well-formedness of one schema model, as Prisma's DMMF guarantees it:
a non-empty name, distinct field names, declared (non-empty) type tags,
and no field literally named `relations` (a schema with such a field makes
the inference engine throw at startup, so no ORM object exists for it; see
`Entity`). -/
structure ModelWF (m : PModel) : Prop where
  nameNE : m.name ≠ ""
  fieldsNodup : (m.fields.map Prod.fst).Nodup
  noRelField : "relations" ∉ m.fields.map Prod.fst
  typesNE : ∀ p ∈ m.fields, p.2 ≠ ""

/-- Well-formedness of a schema: every model well-formed and the
camel-cased entity keys pairwise distinct. -/
structure SchemaWF (s : Schema) : Prop where
  models : ∀ m ∈ s, ModelWF m
  keysNodup : (s.map (fun m => lowerFirst m.name)).Nodup

/-! ## Association-list lemmas -/

theorem getA_setA_self {α : Type} (l : List (String × α)) (k : String) (v : α) :
    getA (setA l k v) k = some v := by
  induction l with
  | nil => simp [setA, getA]
  | cons p rest ih =>
    obtain ⟨k2, v2⟩ := p
    by_cases h : k2 = k
    · simp [setA, h, getA]
    · simp [setA, getA, h, ih]

theorem getA_setA_ne {α : Type} (l : List (String × α)) (k k' : String) (v : α)
    (h : k' ≠ k) : getA (setA l k v) k' = getA l k' := by
  have hk : ¬ k = k' := fun hh => h hh.symm
  induction l with
  | nil => simp [setA, getA, hk]
  | cons p rest ih =>
    obtain ⟨k2, v2⟩ := p
    by_cases h2 : k2 = k
    · subst h2
      simp [setA, getA, hk]
    · simp only [setA, if_neg h2, getA]
      by_cases h3 : k2 = k'
      · simp [h3]
      · simp [h3, ih]

theorem getA_filter_keyfun {α : Type} (l : List (String × α)) (f : String → Bool)
    (k : String) :
    getA (l.filter (fun p => f p.1)) k = if f k then getA l k else none := by
  induction l with
  | nil => simp [getA]
  | cons p rest ih =>
    obtain ⟨k2, v2⟩ := p
    by_cases hf : f k2
    · rw [List.filter_cons_of_pos (by simpa using hf)]
      by_cases h3 : k2 = k
      · subst h3
        simp [getA, hf]
      · simp [getA, h3, ih]
    · rw [List.filter_cons_of_neg (by simpa using hf)]
      by_cases h3 : k2 = k
      · subst h3
        simp [getA, hf, ih]
      · simp [getA, h3, ih]

theorem getA_delA_ne {α : Type} (l : List (String × α)) (k k' : String) (h : k' ≠ k) :
    getA (delA l k) k' = getA l k' := by
  have := getA_filter_keyfun l (fun x => decide (x ≠ k)) k'
  simpa [delA, h] using this

theorem getA_delA_self {α : Type} (l : List (String × α)) (k : String) :
    getA (delA l k) k = none := by
  have := getA_filter_keyfun l (fun x => decide (x ≠ k)) k
  simpa [delA] using this

theorem getA_append {α : Type} (x y : List (String × α)) (k : String) :
    getA (x ++ y) k = match getA x k with | some v => some v | none => getA y k := by
  induction x with
  | nil => simp [getA]
  | cons p rest ih =>
    obtain ⟨k2, v2⟩ := p
    by_cases h : k2 = k
    · simp [getA, h]
    · simp [getA, h, ih]

theorem getA_spread_map {α : Type} (a b : List (String × α)) (k : String) :
    getA (a.map (fun p => match getA b p.1 with | some v => (p.1, v) | none => p)) k =
      match getA a k with
      | some w => some ((getA b k).getD w)
      | none => none := by
  induction a with
  | nil => simp [getA]
  | cons p rest ih =>
    obtain ⟨k2, v2⟩ := p
    by_cases h : k2 = k
    · subst h
      cases hb : getA b k2 <;> simp [getA, hb]
    · cases hb : getA b k2 <;> simp [getA, hb, h, ih]

theorem getA_spreadMerge {α : Type} (a b : List (String × α)) (k : String) :
    getA (spreadMerge a b) k =
      match getA a k with
      | some w => some ((getA b k).getD w)
      | none => getA b k := by
  unfold spreadMerge
  rw [getA_append, getA_spread_map]
  cases ha : getA a k with
  | some w => simp
  | none =>
    have := getA_filter_keyfun b (fun x => (getA a x).isNone) k
    simp only [ha] at this ⊢
    simpa using this

/-! ## Query-builder lemmas -/

theorem entKeys_nodup (e : Entity) (hnd : (fieldKeys e).Nodup)
    (hnr : "relations" ∉ fieldKeys e) : (entKeys e).Nodup := by
  unfold entKeys
  cases h : e.relations.isSome
  · simp [hnd]
  · simp [List.nodup_append, hnd, hnr]

theorem qClause_getA_ne (orm : Orm) (model : String) (opts : AllOptions) (q : PValue)
    (w w' : List (String × WVal)) (k : String) (hk : k ≠ "OR")
    (h : qClause orm model opts q w = .ok w') : getA w' k = getA w k := by
  unfold qClause at h
  by_cases hq : truthyJS q
  · simp only [hq, if_true] at h
    cases hqf : opts.queryableFields with
    | none => simp [hqf] at h; rw [← h]
    | some qf =>
      simp only [hqf] at h
      cases hm : getA orm model with
      | none => simp [hm] at h
      | some e =>
        simp only [hm] at h
        cases h
        exact getA_setA_ne _ _ _ _ hk
  · simp only [hq] at h
    simp at h
    rw [← h]

theorem fieldFilterStep_getA_ne (query : Payload) (w w' : List (String × WVal))
    (g k : String) (hk : k ≠ g) (h : fieldFilterStep query w g = .ok w') :
    getA w' k = getA w k := by
  unfold fieldFilterStep at h
  cases hv : getA query g with
  | none => simp [hv] at h; rw [← h]
  | some v =>
    simp only [hv] at h
    by_cases ht : truthyJS v
    · simp only [ht, if_true] at h
      cases hc : includesJS v ',' with
      | error msg => simp [hc] at h
      | ok hasComma =>
        simp only [hc] at h
        cases hasComma
        · cases hp : includesJS v '|' with
          | error msg => simp [hp] at h
          | ok hasPipe =>
            simp only [hp] at h
            cases hasPipe
            · simp at h
              cases h
              exact getA_setA_ne _ _ _ _ hk
            · simp at h
              cases hs : splitJS v '|' with
              | error msg => simp [hs] at h
              | ok parts =>
                simp [hs] at h
                cases h
                exact getA_setA_ne _ _ _ _ hk
        · cases hs : splitJS v ',' with
          | error msg => simp [hs] at h
          | ok parts =>
            simp [hs] at h
            cases h
            exact getA_setA_ne _ _ _ _ hk
    · simp [ht] at h
      rw [← h]

theorem fieldFilterStep_writes (query : Payload) (w : List (String × WVal)) (f : String)
    (s : String) (hv : getA query f = some (.pStr s)) (hs : s ≠ "") :
    fieldFilterStep query w f =
      .ok (setA w f
        (if containsChar s ',' then .wIn (splitOnChar s ',')
         else if containsChar s '|' then .wHas (splitOnChar s '|')
         else .wEq (.pStr s))) := by
  unfold fieldFilterStep
  simp only [hv, truthyJS, hs]
  simp only [includesJS, splitJS]
  by_cases hc : containsChar s ','
  · simp [hc, hs]
  · by_cases hp : containsChar s '|'
    · simp [hc, hp, hs]
    · simp [hc, hp, hs]

theorem fieldFilterStep_falsy (query : Payload) (w : List (String × WVal)) (f : String)
    (v : PValue) (hv : getA query f = some v) (ht : truthyJS v = false) :
    fieldFilterStep query w f = .ok w := by
  unfold fieldFilterStep
  simp [hv, ht]

theorem fieldFilterLoop_preserve (query : Payload) (w w2 : List (String × WVal))
    (flist : List String) (f : String) (hf : f ∉ flist)
    (h : fieldFilterLoop query w flist = .ok w2) : getA w2 f = getA w f := by
  induction flist generalizing w with
  | nil => simp [fieldFilterLoop] at h; rw [← h]
  | cons g rest ih =>
    simp only [fieldFilterLoop] at h
    cases hstep : fieldFilterStep query w g with
    | error msg => simp [hstep] at h
    | ok w' =>
      simp only [hstep] at h
      have h1 : getA w' f = getA w f :=
        fieldFilterStep_getA_ne query w w' g f
          (fun hh => hf (hh ▸ List.mem_cons_self g rest)) hstep
      rw [ih w' (fun hh => hf (List.mem_cons_of_mem g hh)) h, h1]

theorem fieldFilterLoop_writes (query : Payload) (w w2 : List (String × WVal))
    (flist : List String) (f s : String) (hnd : flist.Nodup) (hf : f ∈ flist)
    (hv : getA query f = some (.pStr s)) (hs : s ≠ "")
    (h : fieldFilterLoop query w flist = .ok w2) :
    getA w2 f =
      some
        (if containsChar s ',' then .wIn (splitOnChar s ',')
         else if containsChar s '|' then .wHas (splitOnChar s '|')
         else .wEq (.pStr s)) := by
  induction flist generalizing w with
  | nil => simp at hf
  | cons g rest ih =>
    simp only [fieldFilterLoop] at h
    by_cases hg : g = f
    · subst hg
      rw [fieldFilterStep_writes query w g s hv hs] at h
      simp only [] at h
      have hnotin : g ∉ rest := (List.nodup_cons.mp hnd).1
      rw [fieldFilterLoop_preserve query _ w2 rest g hnotin h]
      exact getA_setA_self _ _ _
    · cases hstep : fieldFilterStep query w g with
      | error msg => simp [hstep] at h
      | ok w' =>
        simp only [hstep] at h
        have hfr : f ∈ rest := by
          cases List.mem_cons.mp hf with
          | inl hh => exact absurd hh.symm hg
          | inr hh => exact hh
        exact ih w' (List.nodup_cons.mp hnd).2 hfr h

theorem fieldFilterLoop_falsy (query : Payload) (w w2 : List (String × WVal))
    (flist : List String) (f : String) (v : PValue)
    (hv : getA query f = some v) (ht : truthyJS v = false)
    (h : fieldFilterLoop query w flist = .ok w2) : getA w2 f = getA w f := by
  induction flist generalizing w with
  | nil => simp [fieldFilterLoop] at h; rw [← h]
  | cons g rest ih =>
    simp only [fieldFilterLoop] at h
    by_cases hg : g = f
    · subst hg
      rw [fieldFilterStep_falsy query w g v hv ht] at h
      simp only [] at h
      exact ih w h
    · cases hstep : fieldFilterStep query w g with
      | error msg => simp [hstep] at h
      | ok w' =>
        simp only [hstep] at h
        have h1 : getA w' f = getA w f :=
          fieldFilterStep_getA_ne query w w' g f (fun hh => hg hh.symm) hstep
        rw [ih w' h, h1]

theorem buildQueryObject_ok (orm : Orm) (model : String) (query : Payload)
    (opts : AllOptions) (qo : QueryObject) (hhook : opts.filterAllQuery = none)
    (h : buildQueryObject orm model query opts = .ok qo) :
    ∃ e w1 w2, getA orm model = some e ∧
      qClause orm model opts (qget query "q" .pUndefined) [] = .ok w1 ∧
      fieldFilterLoop query w1 (entKeys e) = .ok w2 ∧
      qo.whereEntries = spreadMerge opts.whereOpt w2 := by
  unfold buildQueryObject at h
  by_cases hm : model = ""
  · simp [hm] at h
  · rw [if_neg hm] at h
    simp only [hhook] at h
    cases hq : qClause orm model opts (qget query "q" .pUndefined) [] with
    | error msg => simp [hq] at h
    | ok w1 =>
      simp only [hq] at h
      cases hme : getA orm model with
      | none => simp [hme] at h
      | some e =>
        simp only [hme] at h
        cases hl : fieldFilterLoop query w1 (entKeys e) with
        | error msg => simp [hl] at h
        | ok w2 =>
          simp only [hl, Except.ok.injEq] at h
          exact ⟨e, w1, w2, rfl, rfl, hl, by rw [← h]⟩

theorem fieldFilterStep_congr (q1 q2 : Payload) (w : List (String × WVal)) (g : String)
    (hg : getA q1 g = getA q2 g) : fieldFilterStep q1 w g = fieldFilterStep q2 w g := by
  unfold fieldFilterStep
  rw [hg]

theorem fieldFilterLoop_congr (q1 q2 : Payload) (w : List (String × WVal))
    (flist : List String) (hagree : ∀ g ∈ flist, getA q1 g = getA q2 g) :
    fieldFilterLoop q1 w flist = fieldFilterLoop q2 w flist := by
  induction flist generalizing w with
  | nil => rfl
  | cons g rest ih =>
    simp only [fieldFilterLoop]
    rw [fieldFilterStep_congr q1 q2 w g (hagree g (List.mem_cons_self g rest))]
    cases fieldFilterStep q2 w g with
    | error msg => rfl
    | ok w' => exact ih w' (fun g2 hg2 => hagree g2 (List.mem_cons_of_mem g hg2))

/-! ## Claims -/

/-- C1 (counterexample).  The claim asserts that with current related-id
set 1, 2, 3 and desired set 2, 3, 4 the update mutation issues a connect
list of exactly 4 (the newly added id).  In fact `update` maps the
*whole* incoming list into the connect directive: the built connect list
is 2, 3, 4, not 4 alone (the disconnect list is 1, as claimed). -/
theorem c1_connect_counterexample :
    connectIds c1Directive = [2, 3, 4] ∧ connectIds c1Directive ≠ [4] ∧
      disconnectIds c1Directive = [1] := by
  refine ⟨rfl, by decide, rfl⟩

/-- C1 (amended).  With current related-id set 1, 2, 3 and desired set
2, 3, 4, the built mutation issues a connect list equal to the *entire*
desired set 2, 3, 4 and a disconnect list equal to exactly 1; since
connecting an already-connected id is a no-op of the backend's directive
semantics, the final related set is still exactly 2, 3, 4. -/
theorem c1_update_diff_amended :
    connectIds c1Directive = [2, 3, 4] ∧ disconnectIds c1Directive = [1] ∧
      (∀ x : Int,
        m2mFinalSet [1, 2, 3] (connectIds c1Directive) (disconnectIds c1Directive) x = true ↔
          x = 2 ∨ x = 3 ∨ x = 4) := by
  refine ⟨rfl, rfl, fun x => ?_⟩
  show m2mFinalSet [1, 2, 3] [2, 3, 4] [1] x = true ↔ _
  simp [m2mFinalSet]
  omega

/-- C2 (counterexample).  With `user` declaring exactly the fields `name`
and `idTeam` (as the claim states) and `team` declaring `users`, the
create pipeline first rewrites `idTeam: 5` into
`team: \x7bconnect: \x7bid: 5\x7d\x7d` — but the subsequent sanitization
step deletes the `team` key again, because `team` is not among the
model's declared fields.  The backend create call receives only
`name: "Ann"`: it indeed has no `idTeam` field, but the claimed
`team: \x7bconnect: \x7bid: 5\x7d\x7d` entry is absent as well. -/
theorem c2_create_counterexample :
    createData userTeamOrm "user" [("name", .pStr "Ann"), ("idTeam", .pNum 5)] {} id =
      .ok [("name", .pStr "Ann")] := rfl

/-- C2 (amended).  When the `user` model also declares the relation field
`team` (as a Prisma schema does — the DMMF lists relation fields among a
model's fields), inference records
`user.relations.team = one-to-many via idTeam`, and creating a user with
payload `name: "Ann", idTeam: 5` produces a backend create payload with
`team: \x7bconnect: \x7bid: 5\x7d\x7d` and no `idTeam` field. -/
theorem c2_create_amended :
    getRelation userTeamOrmFull "user" "team" = some (.oneToMany "team" "idTeam") ∧
    createData userTeamOrmFull "user" [("name", .pStr "Ann"), ("idTeam", .pNum 5)] {} id =
      .ok [("name", .pStr "Ann"), ("team", .pObj [("connect", .pObj [("id", .pNum 5)])])] :=
  ⟨rfl, rfl⟩

/-- C5.  Single-record identifier resolution (`resolveWhere`, used by
`get`): an id that parses as an integer filters on the numeric primary
key; a non-parsing id filters on `uid` when the model declares that
field; and with no `uid` field declared, resolution throws instead of
producing a usable filter. -/
theorem c5_identifier_resolution (orm : Orm) (model : String) (e : Entity) (id : PValue)
    (hm : getA orm model = some e) (hne : model ≠ "") (hid : truthyJS id = true) :
    (∀ n : Int, parseIntJS id = .pNum n → getA e.fields "id" = some "Int" →
      resolveWhere orm id model = .ok [("id", .pNum n)]) ∧
    (parseIntJS id = .pNaN → entHas e "uid" = true →
      resolveWhere orm id model = .ok [("uid", id)]) ∧
    (parseIntJS id = .pNaN → entHas e "uid" = false →
      ∃ msg, resolveWhere orm id model = .error msg) := by
  refine ⟨?_, ?_, ?_⟩
  · intro n hn hint
    simp only [resolveWhere, hid, hne, hm, hn, resolveId, getORMObject, hint]
    simp [hint]
  · intro hn huid
    simp only [resolveWhere, hid, hne, hm, hn, huid]
    simp
  · intro hn huid
    simp only [resolveWhere, hid, hne, hm, hn, huid]
    simp

/-- C5 (witness): on a model declaring `uid`, the non-numeric id
`abc-slug` resolves to a `uid` filter. -/
theorem c5_identifier_resolution_witness :
    resolveWhere pageOrm (.pStr "abc-slug") "page" = .ok [("uid", .pStr "abc-slug")] :=
  (c5_identifier_resolution pageOrm "page" ⟨[("id", "Int"), ("uid", "String")], none⟩
      (.pStr "abc-slug") rfl (by decide) rfl).2.1 rfl rfl

/-- C6 (counterexample).  The claim quantifies over *every* entity; on an
entity that declares a field literally named `limit`, the `limit` query
parameter is itself picked up as a direct field filter, so two list calls
agreeing on everything except `limit` build different count queries and
return different counts (here 1 vs 0 over a one-row store). -/
theorem c6_count_counterexample :
    (buildQueryObject limitFieldOrm "thing" [("limit", .pStr "1")] {}).map
        (evalCount [[("limit", .pStr "1")]]) = .ok 1 ∧
    (buildQueryObject limitFieldOrm "thing" [("limit", .pStr "1000")] {}).map
        (evalCount [[("limit", .pStr "1")]]) = .ok 0 :=
  ⟨rfl, rfl⟩

/-- C6 (amended).  Provided the entity declares no field named `page` or
`limit` and no `filterAllQuery` hook is supplied, two list calls whose
query bags agree on every parameter except `page` and `limit` build
identical count queries, so every backend count function returns
identical counts for them — the count is computed from the filter alone,
before skip/take are applied. -/
theorem c6_count_invariant_amended (orm : Orm) (model : String) (q1 q2 : Payload)
    (opts : AllOptions) (e : Entity) (hm : getA orm model = some e)
    (hagree : ∀ k, k ≠ "page" → k ≠ "limit" → getA q1 k = getA q2 k)
    (hp : "page" ∉ fieldKeys e) (hl : "limit" ∉ fieldKeys e)
    (hhook : opts.filterAllQuery = none) :
    buildQueryObject orm model q1 opts = buildQueryObject orm model q2 opts ∧
      ∀ db, (buildQueryObject orm model q1 opts).map (evalCount db) =
        (buildQueryObject orm model q2 opts).map (evalCount db) := by
  have hby : qget q1 "by" (.pStr "id") = qget q2 "by" (.pStr "id") := by
    unfold qget; rw [hagree "by" (by decide) (by decide)]
  have hor : qget q1 "order" (.pStr "desc") = qget q2 "order" (.pStr "desc") := by
    unfold qget; rw [hagree "order" (by decide) (by decide)]
  have hqq : qget q1 "q" .pUndefined = qget q2 "q" .pUndefined := by
    unfold qget; rw [hagree "q" (by decide) (by decide)]
  have hkeys : ∀ g ∈ entKeys e, getA q1 g = getA q2 g := by
    intro g hg
    have : g ∈ fieldKeys e ∨ g = "relations" := by
      unfold entKeys at hg
      rcases List.mem_append.mp hg with h1 | h1
      · exact Or.inl h1
      · cases hrel : e.relations.isSome <;> rw [hrel] at h1 <;> simp at h1
        · exact Or.inr h1
    rcases this with h1 | h1
    · refine hagree g ?_ ?_ <;> intro hh <;> subst hh
      · exact hp h1
      · exact hl h1
    · subst h1
      exact hagree "relations" (by decide) (by decide)
  have main : buildQueryObject orm model q1 opts = buildQueryObject orm model q2 opts := by
    unfold buildQueryObject
    by_cases hmm : model = ""
    · simp [hmm]
    · rw [if_neg hmm, if_neg hmm]
      simp only [hhook, hby, hor, hqq]
      cases qClause orm model opts (qget q2 "q" .pUndefined) [] with
      | error msg => rfl
      | ok w1 =>
        simp only [hm]
        rw [fieldFilterLoop_congr q1 q2 w1 (entKeys e) hkeys]
  exact ⟨main, fun db => by rw [main]⟩

/-- C6 (witness): against a model without `page`/`limit` fields, the
query objects for `page=1,limit=1` and `page=1,limit=1000` coincide. -/
theorem c6_count_invariant_witness :
    buildQueryObject thingOrm "thing" [("page", .pStr "1"), ("limit", .pStr "1")] {} =
      buildQueryObject thingOrm "thing" [("page", .pStr "1"), ("limit", .pStr "1000")] {} :=
  (c6_count_invariant_amended thingOrm "thing" _ _ {}
      ⟨[("id", "Int"), ("status", "String"), ("tags", "String")], none⟩ rfl
      (by
        intro k h1 h2
        simp only [getA]
        simp only [if_neg (show ¬"page" = k from fun hh => h1 hh.symm),
          if_neg (show ¬"limit" = k from fun hh => h2 hh.symm)])
      (by decide) (by decide) rfl).1

/-- C7 (counterexample).  The claim says a value containing a pipe is
split on pipes into a "contains all of" filter; but the comma test runs
first, so the value `a,b|c` — which does contain a pipe — becomes the
membership filter `in ["a", "b|c"]`, not a `has` filter. -/
theorem c7_filter_counterexample :
    whereOf (buildQueryObject thingOrm "thing" [("tags", .pStr "a,b|c")] {}) "tags" =
      some (.wIn ["a", "b|c"]) ∧
    isHasFilter
        (whereOf (buildQueryObject thingOrm "thing" [("tags", .pStr "a,b|c")] {}) "tags") =
      false :=
  ⟨rfl, rfl⟩

/-- C7 (amended).  For a truthy (non-empty) string value of a query
parameter naming a declared field: a value containing a comma becomes a
membership (`in`) filter over the comma-parts — even if it also contains
pipes; a value containing a pipe but no comma becomes a "contains all
of" (`has`) filter over the pipe-parts; any other non-empty value becomes
an equality filter.  (A falsy value adds no filter; see C10.) -/
theorem c7_field_filters_amended (orm : Orm) (model : String) (query : Payload)
    (opts : AllOptions) (e : Entity) (qo : QueryObject) (f s : String)
    (hm : getA orm model = some e) (hnd : (fieldKeys e).Nodup)
    (hnr : "relations" ∉ fieldKeys e) (hf : f ∈ fieldKeys e)
    (hv : getA query f = some (.pStr s)) (hs : s ≠ "")
    (hhook : opts.filterAllQuery = none)
    (h : buildQueryObject orm model query opts = .ok qo) :
    getA qo.whereEntries f =
      some
        (if containsChar s ',' then .wIn (splitOnChar s ',')
         else if containsChar s '|' then .wHas (splitOnChar s '|')
         else .wEq (.pStr s)) := by
  obtain ⟨e', w1, w2, hm', hq, hl, hw⟩ := buildQueryObject_ok orm model query opts qo hhook h
  rw [hm] at hm'
  cases hm'
  have hfk : f ∈ entKeys e := by
    unfold entKeys
    exact List.mem_append_left _ hf
  have h2 : getA w2 f = some _ :=
    fieldFilterLoop_writes query w1 w2 (entKeys e) f s (entKeys_nodup e hnd hnr) hfk hv hs hl
  rw [hw, getA_spreadMerge]
  cases hwo : getA opts.whereOpt f with
  | none => simpa [hwo] using h2
  | some w => simp [hwo, h2]

/-- C7 (witness): the comma value `a,b` on the declared field `status`
produces the membership filter `in ["a", "b"]`. -/
theorem c7_field_filters_witness :
    getA (⟨[("status", WVal.wIn ["a", "b"])], "id", .pStr "desc"⟩ : QueryObject).whereEntries
        "status" = some (.wIn ["a", "b"]) :=
  c7_field_filters_amended thingOrm "thing" [("status", .pStr "a,b")] {}
    ⟨[("id", "Int"), ("status", "String"), ("tags", "String")], none⟩
    ⟨[("status", WVal.wIn ["a", "b"])], "id", .pStr "desc"⟩ "status" "a,b" rfl (by decide)
    (by decide) (by decide) rfl (by decide) rfl rfl

/-- C8 (counterexample).  Sanitization keeps any payload key the model
*object* owns, and after inference that object also owns the key
`relations`; so a payload entry literally named `relations` survives
sanitization on a model with inferred relations even though `relations`
is not a declared field — the result's key set is not contained in the
declared field set. -/
theorem c8_sanitize_counterexample :
    sanitizeData userTeamOrm [("relations", .pStr "x")] "user" =
      .ok [("relations", .pStr "x")] ∧
    (getA userTeamOrm "user").map (fun e => getA e.fields "relations") = some none :=
  ⟨rfl, rfl⟩

/-- C8 (amended).  `sanitizeData` is idempotent, and never adds a key:
every key of the result occurs in the input payload and is either a
declared field of the entity or the literal key `relations` (the latter
only when the entity carries an inferred relation map). -/
theorem c8_sanitize_amended (orm : Orm) (model : String) (data d1 : Payload) (e : Entity)
    (hm : getA orm model = some e) (hne : model ≠ "")
    (h : sanitizeData orm data model = .ok d1) :
    sanitizeData orm d1 model = .ok d1 ∧
      (∀ k ∈ d1.map Prod.fst, k ∈ data.map Prod.fst) ∧
      (∀ k ∈ d1.map Prod.fst,
        (getA e.fields k).isSome = true ∨ (k = "relations" ∧ e.relations.isSome = true)) := by
  unfold sanitizeData at h ⊢
  rw [if_neg hne] at h ⊢
  simp only [hm] at h ⊢
  simp only [Except.ok.injEq] at h
  subst h
  refine ⟨?_, ?_, ?_⟩
  · rw [List.filter_filter]
    simp
  · intro k hk
    obtain ⟨p, hp, hpk⟩ := List.mem_map.mp hk
    exact hpk ▸ List.mem_map_of_mem Prod.fst (List.mem_of_mem_filter hp)
  · intro k hk
    obtain ⟨p, hp, hpk⟩ := List.mem_map.mp hk
    have hent : entHas e p.1 = true := by
      have := List.mem_filter.mp hp
      simpa using this.2
    subst hpk
    unfold entHas at hent
    by_cases hrel : p.1 = "relations"
    · right
      rw [if_pos hrel] at hent
      exact ⟨hrel, hent⟩
    · left
      rwa [if_neg hrel] at hent

/-- C8 (witness): sanitizing an already-sanitized payload returns it
unchanged. -/
theorem c8_sanitize_witness :
    sanitizeData userTeamOrm [("name", .pStr "a")] "user" = .ok [("name", .pStr "a")] :=
  (c8_sanitize_amended userTeamOrm "user" [("name", .pStr "a"), ("junk", .pNum 1)]
      [("name", .pStr "a")]
      ⟨[("name", "String"), ("idTeam", "Int")],
        some [("team", .oneToMany "team" "idTeam")]⟩ rfl (by decide) rfl).1

/-- C9.  The claim says the list operation never swallows a backend
error; the current service indeed rethrows (`allRetrieveNew`), but the
older `generics/service.js` variant catches the `findMany` rejection,
only logs it, and resolves with `undefined` (`allRetrieveOld` = `none`):
the error is swallowed and a normal, undefined result takes its place.
The spec's propagation policy is the intent; the old catch block is the
slip. -/
theorem c9_error_swallowed_divergence :
    allRetrieveOld (.error "db failure") 7 = none ∧
    allRetrieveNew "user" (.error "db failure") 7 =
      .error "Error retrieving user: db failure" :=
  ⟨rfl, rfl⟩

/-- C10.  The list operation adds a direct field filter only for truthy
parameter values: for a declared field whose query value is falsy (0, the
empty string, or false), the built query object contains no entry for
that field at all — given that no base filter on that field is supplied
via options and no `filterAllQuery` hook replaces the query. -/
theorem c10_falsy_filter (orm : Orm) (model : String) (query : Payload)
    (opts : AllOptions) (e : Entity) (qo : QueryObject) (f : String) (v : PValue)
    (_hm : getA orm model = some e) (_hf : f ∈ fieldKeys e)
    (hv : getA query f = some v) (ht : truthyJS v = false)
    (hOR : f ≠ "OR") (how : getA opts.whereOpt f = none)
    (hhook : opts.filterAllQuery = none)
    (h : buildQueryObject orm model query opts = .ok qo) :
    getA qo.whereEntries f = none := by
  obtain ⟨e', w1, w2, hm', hq, hl, hw⟩ := buildQueryObject_ok orm model query opts qo hhook h
  have h1 : getA w1 f = none := by
    rw [qClause_getA_ne orm model opts _ [] w1 f hOR hq]
    simp [getA]
  have h2 : getA w2 f = none := by
    rw [fieldFilterLoop_falsy query w1 w2 (entKeys e') f v hv ht hl, h1]
  rw [hw, getA_spreadMerge, how, h2]

/-- C10 (witness): the falsy value `0` on the declared field `status`
produces no filter. -/
theorem c10_falsy_filter_witness :
    getA (⟨[], "id", .pStr "desc"⟩ : QueryObject).whereEntries "status" = none :=
  c10_falsy_filter thingOrm "thing" [("status", .pNum 0)] {}
    ⟨[("id", "Int"), ("status", "String"), ("tags", "String")], none⟩
    ⟨[], "id", .pStr "desc"⟩ "status" (.pNum 0) rfl (by decide) rfl rfl (by decide) rfl rfl
    rfl

/-! ## Relation-inference lemmas -/

theorem idPrefix_ne_relations (x : String) : "id" ++ x ≠ "relations" := by
  intro h
  have h2 := congrArg String.data h
  simp [String.data_append] at h2

theorem entGet_eq_typeTruthy (e : Entity) (k : String) (hk : k ≠ "relations") :
    entGet e k = typeTruthy e.fields k := by
  unfold entGet typeTruthy
  rw [if_neg hk]

theorem getA_mem_keys {α : Type} (l : List (String × α)) (k : String)
    (h : k ∈ l.map Prod.fst) : ∃ v, getA l k = some v ∧ (k, v) ∈ l := by
  induction l with
  | nil => simp at h
  | cons p rest ih =>
    obtain ⟨k2, v2⟩ := p
    by_cases hk : k2 = k
    · subst hk
      exact ⟨v2, by simp [getA], List.mem_cons_self _ _⟩
    · have hr : k ∈ rest.map Prod.fst := by
        rcases List.mem_map.mp h with ⟨q, hq, hqe⟩
        rcases List.mem_cons.mp hq with h1 | h1
        · rw [h1] at hqe
          exact absurd hqe hk
        · exact List.mem_map.mpr ⟨q, h1, hqe⟩
      obtain ⟨v, hv, hmem⟩ := ih hr
      exact ⟨v, by simp [getA, hk, hv], List.mem_cons_of_mem _ hmem⟩

theorem relMap_setRel (e : Entity) (om : String) (r : Rel) :
    relMap (setRel e om r) = setA (relMap e) om r := by
  unfold setRel relMap
  simp

theorem getRelation_of_getA (obj : Orm) (model targ : String) (e : Entity)
    (h : getA obj model = some e) : getRelation obj model targ = getA (relMap e) targ := by
  unfold getRelation
  rw [h]

theorem getA_m2mStep_ne (pl : String → String) (obj : Orm) (model om k : String)
    (hk : k ≠ model) : getA (m2mStep pl obj model om) k = getA obj k := by
  unfold m2mStep
  by_cases h1 : model ≠ om
  · rw [if_pos h1]
    cases h2 : getA obj model with
    | none => cases h3 : getA obj om <;> simp only [h2, h3]
    | some me =>
      cases h3 : getA obj om with
      | none => simp only [h2, h3]
      | some oe =>
        simp only [h2, h3]
        by_cases h4 : (entGet me (lowerFirst (pl om)) && entGet oe (lowerFirst (pl model))) = true
        · rw [if_pos h4]
          exact getA_setA_ne _ _ _ _ hk
        · rw [if_neg h4]
  · rw [if_neg h1]

theorem fields_m2mStep (pl : String → String) (obj : Orm) (model om k : String) :
    (getA (m2mStep pl obj model om) k).map Entity.fields =
      (getA obj k).map Entity.fields := by
  by_cases hk : k = model
  · subst hk
    unfold m2mStep
    by_cases h1 : k ≠ om
    · rw [if_pos h1]
      cases h2 : getA obj k with
      | none => cases h3 : getA obj om <;> simp only [h2, h3]
      | some me =>
        cases h3 : getA obj om with
        | none => simp only [h2, h3]
        | some oe =>
          simp only [h2, h3]
          by_cases h4 : (entGet me (lowerFirst (pl om)) && entGet oe (lowerFirst (pl k))) = true
          · rw [if_pos h4, getA_setA_self]
            rfl
          · rw [if_neg h4, h2]
    · rw [if_neg h1]
  · rw [getA_m2mStep_ne pl obj model om k hk]

theorem rel_m2mStep_ne_target (pl : String → String) (obj : Orm) (model om targ : String)
    (ht : targ ≠ om) :
    getRelation (m2mStep pl obj model om) model targ = getRelation obj model targ := by
  unfold m2mStep
  by_cases h1 : model ≠ om
  · rw [if_pos h1]
    cases h2 : getA obj model with
    | none => cases h3 : getA obj om <;> simp only [h2, h3]
    | some me =>
      cases h3 : getA obj om with
      | none => simp only [h2, h3]
      | some oe =>
        simp only [h2, h3]
        by_cases h4 : (entGet me (lowerFirst (pl om)) && entGet oe (lowerFirst (pl model))) = true
        · rw [if_pos h4]
          rw [getRelation_of_getA _ _ _ _ (getA_setA_self obj model _),
            getRelation_of_getA _ _ _ _ h2, relMap_setRel]
          exact getA_setA_ne _ _ _ _ ht
        · rw [if_neg h4]
  · rw [if_neg h1]

theorem rel_m2mStep_shape (pl : String → String) (obj : Orm) (model om targ : String)
    (h : isO2M (getRelation (m2mStep pl obj model om) model targ) = true) :
    isO2M (getRelation obj model targ) = true := by
  by_cases ht : targ = om
  · subst om
    unfold m2mStep at h
    by_cases h1 : model ≠ targ
    · rw [if_pos h1] at h
      cases h2 : getA obj model with
      | none =>
        cases h3 : getA obj targ <;> rw [h2, h3] at h <;> exact h
      | some me =>
        cases h3 : getA obj targ with
        | none => rw [h2, h3] at h; exact h
        | some oe =>
          rw [h2, h3] at h
          simp only [] at h
          by_cases h4 :
              (entGet me (lowerFirst (pl targ)) && entGet oe (lowerFirst (pl model))) = true
          · rw [if_pos h4] at h
            rw [getRelation_of_getA _ _ _ _ (getA_setA_self obj model _), relMap_setRel,
              getA_setA_self] at h
            simp [isO2M] at h
          · rwa [if_neg h4] at h
    · rwa [if_neg h1] at h
  · rwa [rel_m2mStep_ne_target pl obj model om targ ht] at h

theorem rel_m2mStep_write (pl : String → String) (obj : Orm) (model om : String)
    (me oe : Entity) (hmo : model ≠ om) (hme : getA obj model = some me)
    (hoe : getA obj om = some oe) (hc1 : entGet me (lowerFirst (pl om)) = true)
    (hc2 : entGet oe (lowerFirst (pl model)) = true) :
    getRelation (m2mStep pl obj model om) model om = some (.manyToMany om (pl om)) := by
  unfold m2mStep
  rw [if_pos hmo]
  simp only [hme, hoe, hc1, hc2, Bool.and_self, if_true]
  rw [getRelation_of_getA _ _ _ _ (getA_setA_self obj model _), relMap_setRel,
    getA_setA_self]



theorem getA_m2mPass_ne (pl : String → String) (obj : Orm) (L : List String)
    (model k : String) (hk : k ≠ model) :
    getA (addManyToManyRelations pl obj L model) k = getA obj k := by
  induction L generalizing obj with
  | nil => rfl
  | cons om rest ih =>
    unfold addManyToManyRelations
    rw [ih (m2mStep pl obj model om), getA_m2mStep_ne pl obj model om k hk]

theorem fields_m2mPass (pl : String → String) (obj : Orm) (L : List String)
    (model k : String) :
    (getA (addManyToManyRelations pl obj L model) k).map Entity.fields =
      (getA obj k).map Entity.fields := by
  induction L generalizing obj with
  | nil => rfl
  | cons om rest ih =>
    unfold addManyToManyRelations
    rw [ih (m2mStep pl obj model om), fields_m2mStep]

theorem rel_m2mPass_not_mem (pl : String → String) (obj : Orm) (L : List String)
    (model targ : String) (ht : targ ∉ L) :
    getRelation (addManyToManyRelations pl obj L model) model targ =
      getRelation obj model targ := by
  induction L generalizing obj with
  | nil => rfl
  | cons om rest ih =>
    unfold addManyToManyRelations
    rw [ih (m2mStep pl obj model om) (fun hh => ht (List.mem_cons_of_mem om hh)),
      rel_m2mStep_ne_target pl obj model om targ
        (fun hh => ht (hh ▸ List.mem_cons_self om rest))]

theorem rel_m2mPass_shape (pl : String → String) (obj : Orm) (L : List String)
    (model targ : String)
    (h : isO2M (getRelation (addManyToManyRelations pl obj L model) model targ) = true) :
    isO2M (getRelation obj model targ) = true := by
  induction L generalizing obj with
  | nil => exact h
  | cons om rest ih =>
    unfold addManyToManyRelations at h
    exact rel_m2mStep_shape pl obj model om targ (ih (m2mStep pl obj model om) h)

theorem rel_m2mPass_write (pl : String → String) (obj : Orm) (L : List String)
    (model om : String) (FA FB : List (String × String))
    (hnd : L.Nodup) (hom : om ∈ L) (hmo : model ≠ om)
    (hA : (getA obj model).map Entity.fields = some FA)
    (hB : (getA obj om).map Entity.fields = some FB)
    (hc1 : typeTruthy FA (lowerFirst (pl om)) = true)
    (hc2 : typeTruthy FB (lowerFirst (pl model)) = true)
    (hr1 : lowerFirst (pl om) ≠ "relations")
    (hr2 : lowerFirst (pl model) ≠ "relations") :
    getRelation (addManyToManyRelations pl obj L model) model om =
      some (.manyToMany om (pl om)) := by
  induction L generalizing obj with
  | nil => simp at hom
  | cons om0 rest ih =>
    unfold addManyToManyRelations
    by_cases h0 : om0 = om
    · subst h0
      obtain ⟨me, hme⟩ : ∃ me, getA obj model = some me := by
        cases hx : getA obj model with
        | none => rw [hx] at hA; simp at hA
        | some me => exact ⟨me, rfl⟩
      obtain ⟨oe, hoe⟩ : ∃ oe, getA obj om0 = some oe := by
        cases hx : getA obj om0 with
        | none => rw [hx] at hB; simp at hB
        | some oe => exact ⟨oe, rfl⟩
      have hfa : me.fields = FA := by
        rw [hme] at hA; simpa using hA
      have hfb : oe.fields = FB := by
        rw [hoe] at hB; simpa using hB
      have hw := rel_m2mStep_write pl obj model om0 me oe hmo hme hoe
        (by rw [entGet_eq_typeTruthy me _ hr1, hfa]; exact hc1)
        (by rw [entGet_eq_typeTruthy oe _ hr2, hfb]; exact hc2)
      rw [rel_m2mPass_not_mem pl (m2mStep pl obj model om0) rest model om0
        (List.nodup_cons.mp hnd).1, hw]
    · have hom' : om ∈ rest := by
        cases List.mem_cons.mp hom with
        | inl hh => exact absurd hh.symm h0
        | inr hh => exact hh
      refine ih (m2mStep pl obj model om0) (List.nodup_cons.mp hnd).2 hom' ?_ ?_
      · rw [fields_m2mStep]; exact hA
      · rw [fields_m2mStep]; exact hB



theorem getA_o2mWrite_ne (obj : Orm) (model om field k : String) (hk : k ≠ model) :
    getA (o2mWrite obj model om field) k = getA obj k := by
  unfold o2mWrite
  cases h : getA obj model with
  | none => rfl
  | some me => exact getA_setA_ne _ _ _ _ hk

theorem fields_o2mWrite (obj : Orm) (model om field k : String) :
    (getA (o2mWrite obj model om field) k).map Entity.fields =
      (getA obj k).map Entity.fields := by
  by_cases hk : k = model
  · subst hk
    unfold o2mWrite
    cases h : getA obj k with
    | none =>
      show Option.map Entity.fields (getA obj k) = _
      rw [h]
    | some me =>
      rw [getA_setA_self]
      rfl
  · rw [getA_o2mWrite_ne obj model om field k hk]

theorem rel_o2mWrite_self (obj : Orm) (model om field : String) (me : Entity)
    (hme : getA obj model = some me) :
    getRelation (o2mWrite obj model om field) model om = some (.oneToMany om field) := by
  unfold o2mWrite
  rw [hme]
  rw [getRelation_of_getA _ _ _ _ (getA_setA_self obj model _), relMap_setRel, getA_setA_self]

theorem rel_o2mWrite_ne_target (obj : Orm) (model om field targ : String) (ht : targ ≠ om) :
    getRelation (o2mWrite obj model om field) model targ = getRelation obj model targ := by
  unfold o2mWrite
  cases h : getA obj model with
  | none => rfl
  | some me =>
    rw [getRelation_of_getA _ _ _ _ (getA_setA_self obj model _),
      getRelation_of_getA _ _ _ _ h, relMap_setRel]
    exact getA_setA_ne _ _ _ _ ht

theorem o2mInnerLoop_no_match (pl : String → String) (obj : Orm)
    (model om field : String) (list : List String)
    (h : pl model = "relations" ∨ pl model ∉ list) :
    o2mInnerLoop pl obj model om field list = obj := by
  induction list with
  | nil => rfl
  | cons of rest ih =>
    unfold o2mInnerLoop
    have hcond : ¬ (of ≠ "relations" ∧ of = pl model) := by
      rintro ⟨h1, h2⟩
      rcases h with h3 | h3
      · exact h1 (h2.trans h3)
      · exact h3 (h2 ▸ List.mem_cons_self of rest)
    rw [if_neg hcond]
    refine ih ?_
    rcases h with h3 | h3
    · exact Or.inl h3
    · exact Or.inr (fun hh => h3 (List.mem_cons_of_mem of hh))

theorem getA_o2mInnerLoop_ne (pl : String → String) (obj : Orm)
    (model om field k : String) (list : List String) (hk : k ≠ model) :
    getA (o2mInnerLoop pl obj model om field list) k = getA obj k := by
  induction list generalizing obj with
  | nil => rfl
  | cons of rest ih =>
    unfold o2mInnerLoop
    by_cases hcond : of ≠ "relations" ∧ of = pl model
    · rw [if_pos hcond, ih (o2mWrite obj model om field),
        getA_o2mWrite_ne obj model om field k hk]
    · rw [if_neg hcond, ih obj]

theorem fields_o2mInnerLoop (pl : String → String) (obj : Orm)
    (model om field k : String) (list : List String) :
    (getA (o2mInnerLoop pl obj model om field list) k).map Entity.fields =
      (getA obj k).map Entity.fields := by
  induction list generalizing obj with
  | nil => rfl
  | cons of rest ih =>
    unfold o2mInnerLoop
    by_cases hcond : of ≠ "relations" ∧ of = pl model
    · rw [if_pos hcond, ih (o2mWrite obj model om field),
        fields_o2mWrite obj model om field k]
    · rw [if_neg hcond, ih obj]

theorem rel_o2mInnerLoop_ne_target (pl : String → String) (obj : Orm)
    (model om field targ : String) (list : List String) (ht : targ ≠ om) :
    getRelation (o2mInnerLoop pl obj model om field list) model targ =
      getRelation obj model targ := by
  induction list generalizing obj with
  | nil => rfl
  | cons of rest ih =>
    unfold o2mInnerLoop
    by_cases hcond : of ≠ "relations" ∧ of = pl model
    · rw [if_pos hcond, ih (o2mWrite obj model om field),
        rel_o2mWrite_ne_target obj model om field targ ht]
    · rw [if_neg hcond, ih obj]

theorem rel_o2mInnerLoop_write (pl : String → String) (obj : Orm)
    (model om field : String) (list : List String) (me : Entity)
    (hnd : list.Nodup) (hmem : pl model ∈ list) (hrel : pl model ≠ "relations")
    (hme : getA obj model = some me) :
    getRelation (o2mInnerLoop pl obj model om field list) model om =
      some (.oneToMany om field) := by
  induction list generalizing obj me with
  | nil => simp at hmem
  | cons of rest ih =>
    unfold o2mInnerLoop
    by_cases h0 : of = pl model
    · have hcond : of ≠ "relations" ∧ of = pl model := ⟨h0 ▸ hrel, h0⟩
      rw [if_pos hcond]
      rw [o2mInnerLoop_no_match pl (o2mWrite obj model om field) model om field rest
        (Or.inr (fun hh => (List.nodup_cons.mp hnd).1 (h0 ▸ hh)))]
      exact rel_o2mWrite_self obj model om field me hme
    · have hcond : ¬ (of ≠ "relations" ∧ of = pl model) := fun hh => h0 hh.2
      rw [if_neg hcond]
      have hmem' : pl model ∈ rest := by
        cases List.mem_cons.mp hmem with
        | inl hh => exact absurd hh.symm h0
        | inr hh => exact hh
      exact ih obj me (List.nodup_cons.mp hnd).2 hmem' hme



theorem o2mFieldLoop_no_match (pl : String → String) (obj : Orm) (model om : String)
    (flist : List String) (h : ("id" ++ upperFirst om) ∉ flist) :
    o2mFieldLoop pl obj model om flist = obj := by
  induction flist with
  | nil => rfl
  | cons field rest ih =>
    unfold o2mFieldLoop
    have hcond : ¬ (field ≠ "relations" ∧ field = "id" ++ upperFirst om) := by
      rintro ⟨h1, h2⟩
      exact h (h2 ▸ List.mem_cons_self field rest)
    rw [if_neg hcond]
    exact ih (fun hh => h (List.mem_cons_of_mem field hh))

theorem o2mFieldLoop_inner_no_match (pl : String → String) (obj : Orm) (model om : String)
    (flist : List String)
    (h : ∀ oe, getA obj om = some oe → pl model = "relations" ∨ pl model ∉ entKeys oe) :
    o2mFieldLoop pl obj model om flist = obj := by
  induction flist with
  | nil => rfl
  | cons field rest ih =>
    unfold o2mFieldLoop
    by_cases hcond : field ≠ "relations" ∧ field = "id" ++ upperFirst om
    · rw [if_pos hcond]
      cases hoe : getA obj om with
      | none => exact ih
      | some oe =>
        show o2mFieldLoop pl (o2mInnerLoop pl obj model om field (entKeys oe)) model om rest =
          obj
        rw [o2mInnerLoop_no_match pl obj model om field (entKeys oe) (h oe hoe)]
        exact ih
    · rw [if_neg hcond]
      exact ih

theorem getA_o2mFieldLoop_ne (pl : String → String) (obj : Orm) (model om k : String)
    (flist : List String) (hk : k ≠ model) :
    getA (o2mFieldLoop pl obj model om flist) k = getA obj k := by
  induction flist generalizing obj with
  | nil => rfl
  | cons field rest ih =>
    unfold o2mFieldLoop
    by_cases hcond : field ≠ "relations" ∧ field = "id" ++ upperFirst om
    · rw [if_pos hcond]
      cases hoe : getA obj om with
      | none => exact ih obj
      | some oe =>
        rw [ih (o2mInnerLoop pl obj model om field (entKeys oe)),
          getA_o2mInnerLoop_ne pl obj model om field k (entKeys oe) hk]
    · rw [if_neg hcond]
      exact ih obj

theorem fields_o2mFieldLoop (pl : String → String) (obj : Orm) (model om k : String)
    (flist : List String) :
    (getA (o2mFieldLoop pl obj model om flist) k).map Entity.fields =
      (getA obj k).map Entity.fields := by
  induction flist generalizing obj with
  | nil => rfl
  | cons field rest ih =>
    unfold o2mFieldLoop
    by_cases hcond : field ≠ "relations" ∧ field = "id" ++ upperFirst om
    · rw [if_pos hcond]
      cases hoe : getA obj om with
      | none => exact ih obj
      | some oe =>
        rw [ih (o2mInnerLoop pl obj model om field (entKeys oe)),
          fields_o2mInnerLoop pl obj model om field k (entKeys oe)]
    · rw [if_neg hcond]
      exact ih obj

theorem rel_o2mFieldLoop_ne_target (pl : String → String) (obj : Orm)
    (model om targ : String) (flist : List String) (ht : targ ≠ om) :
    getRelation (o2mFieldLoop pl obj model om flist) model targ =
      getRelation obj model targ := by
  induction flist generalizing obj with
  | nil => rfl
  | cons field rest ih =>
    unfold o2mFieldLoop
    by_cases hcond : field ≠ "relations" ∧ field = "id" ++ upperFirst om
    · rw [if_pos hcond]
      cases hoe : getA obj om with
      | none => exact ih obj
      | some oe =>
        rw [ih (o2mInnerLoop pl obj model om field (entKeys oe)),
          rel_o2mInnerLoop_ne_target pl obj model om field targ (entKeys oe) ht]
    · rw [if_neg hcond]
      exact ih obj

theorem rel_o2mFieldLoop_write (pl : String → String) (obj : Orm) (model om : String)
    (flist : List String) (me oe : Entity)
    (hnd : flist.Nodup) (hfB : ("id" ++ upperFirst om) ∈ flist)
    (hme : getA obj model = some me) (hoe : getA obj om = some oe)
    (hoknd : (entKeys oe).Nodup) (hpm : pl model ∈ entKeys oe)
    (hpr : pl model ≠ "relations") :
    getRelation (o2mFieldLoop pl obj model om flist) model om =
      some (.oneToMany om ("id" ++ upperFirst om)) := by
  induction flist generalizing obj me oe with
  | nil => simp at hfB
  | cons field rest ih =>
    unfold o2mFieldLoop
    by_cases h0 : field = "id" ++ upperFirst om
    · subst h0
      have hcond : "id" ++ upperFirst om ≠ "relations" ∧
          "id" ++ upperFirst om = "id" ++ upperFirst om :=
        ⟨idPrefix_ne_relations (upperFirst om), rfl⟩
      rw [if_pos hcond, hoe]
      show getRelation
          (o2mFieldLoop pl
            (o2mInnerLoop pl obj model om ("id" ++ upperFirst om) (entKeys oe)) model om rest)
          model om = _
      rw [o2mFieldLoop_no_match pl _ model om rest (List.nodup_cons.mp hnd).1]
      exact rel_o2mInnerLoop_write pl obj model om _ (entKeys oe) me hoknd hpm hpr hme
    · have hcond : ¬ (field ≠ "relations" ∧ field = "id" ++ upperFirst om) :=
        fun hh => h0 hh.2
      rw [if_neg hcond]
      have hfB' : ("id" ++ upperFirst om) ∈ rest := by
        cases List.mem_cons.mp hfB with
        | inl hh => exact absurd hh.symm h0
        | inr hh => exact hh
      exact ih obj me oe (List.nodup_cons.mp hnd).2 hfB' hme hoe hoknd hpm



theorem getA_o2mStep_ne (pl : String → String) (obj : Orm) (model om k : String)
    (hk : k ≠ model) : getA (o2mStep pl obj model om) k = getA obj k := by
  unfold o2mStep
  by_cases h1 : model ≠ om
  · rw [if_pos h1]
    cases h2 : getA obj model with
    | none => rfl
    | some me => exact getA_o2mFieldLoop_ne pl obj model om k (entKeys me) hk
  · rw [if_neg h1]

theorem fields_o2mStep (pl : String → String) (obj : Orm) (model om k : String) :
    (getA (o2mStep pl obj model om) k).map Entity.fields =
      (getA obj k).map Entity.fields := by
  unfold o2mStep
  by_cases h1 : model ≠ om
  · rw [if_pos h1]
    cases h2 : getA obj model with
    | none => rfl
    | some me => exact fields_o2mFieldLoop pl obj model om k (entKeys me)
  · rw [if_neg h1]

theorem rel_o2mStep_ne_target (pl : String → String) (obj : Orm) (model om targ : String)
    (ht : targ ≠ om) :
    getRelation (o2mStep pl obj model om) model targ = getRelation obj model targ := by
  unfold o2mStep
  by_cases h1 : model ≠ om
  · rw [if_pos h1]
    cases h2 : getA obj model with
    | none => rfl
    | some me => exact rel_o2mFieldLoop_ne_target pl obj model om targ (entKeys me) ht
  · rw [if_neg h1]

theorem entKeys_mem_of_fieldKeys (e : Entity) (k : String) (h : k ∈ fieldKeys e) :
    k ∈ entKeys e :=
  List.mem_append_left _ h

theorem mem_fieldKeys_of_entKeys (e : Entity) (k : String) (h : k ∈ entKeys e)
    (hk : k ≠ "relations") : k ∈ fieldKeys e := by
  rcases List.mem_append.mp h with h1 | h1
  · exact h1
  · cases hrel : e.relations.isSome <;> rw [hrel] at h1 <;> simp at h1
    exact absurd h1 hk

theorem rel_o2mStep_write (pl : String → String) (obj : Orm) (model om : String)
    (me oe : Entity) (hmo : model ≠ om) (hme : getA obj model = some me)
    (hndA : (fieldKeys me).Nodup) (hnrA : "relations" ∉ fieldKeys me)
    (hidB : ("id" ++ upperFirst om) ∈ fieldKeys me)
    (hoe : getA obj om = some oe)
    (hndB : (fieldKeys oe).Nodup) (hnrB : "relations" ∉ fieldKeys oe)
    (hpm : pl model ∈ fieldKeys oe) :
    getRelation (o2mStep pl obj model om) model om =
      some (.oneToMany om ("id" ++ upperFirst om)) := by
  unfold o2mStep
  rw [if_pos hmo, hme]
  show getRelation (o2mFieldLoop pl obj model om (entKeys me)) model om = _
  exact rel_o2mFieldLoop_write pl obj model om (entKeys me) me oe
    (entKeys_nodup me hndA hnrA) (entKeys_mem_of_fieldKeys me _ hidB) hme hoe
    (entKeys_nodup oe hndB hnrB) (entKeys_mem_of_fieldKeys oe _ hpm)
    (fun hh => hnrB (hh ▸ hpm))

theorem o2mStep_eq_self_of_noidB (pl : String → String) (obj : Orm) (model om : String)
    (h : ∀ me, getA obj model = some me → ("id" ++ upperFirst om) ∉ fieldKeys me) :
    o2mStep pl obj model om = obj := by
  unfold o2mStep
  by_cases h1 : model ≠ om
  · rw [if_pos h1]
    cases h2 : getA obj model with
    | none => rfl
    | some me =>
      refine o2mFieldLoop_no_match pl obj model om (entKeys me) ?_
      intro hh
      exact h me h2 (mem_fieldKeys_of_entKeys me _ hh (idPrefix_ne_relations (upperFirst om)))
  · rw [if_neg h1]

theorem o2mStep_eq_self_of_inner (pl : String → String) (obj : Orm) (model om : String)
    (h : ∀ oe, getA obj om = some oe → pl model ∉ fieldKeys oe) :
    o2mStep pl obj model om = obj := by
  unfold o2mStep
  by_cases h1 : model ≠ om
  · rw [if_pos h1]
    cases h2 : getA obj model with
    | none => rfl
    | some me =>
      refine o2mFieldLoop_inner_no_match pl obj model om (entKeys me) ?_
      intro oe hoe
      by_cases hr : pl model = "relations"
      · exact Or.inl hr
      · exact Or.inr (fun hh => h oe hoe (mem_fieldKeys_of_entKeys oe _ hh hr))
  · rw [if_neg h1]



theorem getA_o2mPass_ne (pl : String → String) (obj : Orm) (L : List String)
    (model k : String) (hk : k ≠ model) :
    getA (addOneToManyRelations pl obj L model) k = getA obj k := by
  induction L generalizing obj with
  | nil => rfl
  | cons om rest ih =>
    unfold addOneToManyRelations
    rw [ih (o2mStep pl obj model om), getA_o2mStep_ne pl obj model om k hk]

theorem fields_o2mPass (pl : String → String) (obj : Orm) (L : List String)
    (model k : String) :
    (getA (addOneToManyRelations pl obj L model) k).map Entity.fields =
      (getA obj k).map Entity.fields := by
  induction L generalizing obj with
  | nil => rfl
  | cons om rest ih =>
    unfold addOneToManyRelations
    rw [ih (o2mStep pl obj model om), fields_o2mStep]

theorem rel_o2mPass_not_mem (pl : String → String) (obj : Orm) (L : List String)
    (model targ : String) (ht : targ ∉ L) :
    getRelation (addOneToManyRelations pl obj L model) model targ =
      getRelation obj model targ := by
  induction L generalizing obj with
  | nil => rfl
  | cons om rest ih =>
    unfold addOneToManyRelations
    rw [ih (o2mStep pl obj model om) (fun hh => ht (List.mem_cons_of_mem om hh)),
      rel_o2mStep_ne_target pl obj model om targ
        (fun hh => ht (hh ▸ List.mem_cons_self om rest))]

theorem rel_o2mPass_write (pl : String → String) (obj : Orm) (L : List String)
    (model om : String) (FA FB : List (String × String))
    (hnd : L.Nodup) (hom : om ∈ L) (hmo : model ≠ om)
    (hA : (getA obj model).map Entity.fields = some FA)
    (hB : (getA obj om).map Entity.fields = some FB)
    (hndA : (FA.map Prod.fst).Nodup) (hnrA : "relations" ∉ FA.map Prod.fst)
    (hidB : ("id" ++ upperFirst om) ∈ FA.map Prod.fst)
    (hndB : (FB.map Prod.fst).Nodup) (hnrB : "relations" ∉ FB.map Prod.fst)
    (hpm : pl model ∈ FB.map Prod.fst) :
    getRelation (addOneToManyRelations pl obj L model) model om =
      some (.oneToMany om ("id" ++ upperFirst om)) := by
  induction L generalizing obj with
  | nil => simp at hom
  | cons om0 rest ih =>
    unfold addOneToManyRelations
    by_cases h0 : om0 = om
    · subst h0
      obtain ⟨me, hme⟩ : ∃ me, getA obj model = some me := by
        cases hx : getA obj model with
        | none => rw [hx] at hA; simp at hA
        | some me => exact ⟨me, rfl⟩
      obtain ⟨oe, hoe⟩ : ∃ oe, getA obj om0 = some oe := by
        cases hx : getA obj om0 with
        | none => rw [hx] at hB; simp at hB
        | some oe => exact ⟨oe, rfl⟩
      have hfa : me.fields = FA := by
        rw [hme] at hA; simpa using hA
      have hfb : oe.fields = FB := by
        rw [hoe] at hB; simpa using hB
      have hkeysa : fieldKeys me = FA.map Prod.fst := by rw [fieldKeys, hfa]
      have hkeysb : fieldKeys oe = FB.map Prod.fst := by rw [fieldKeys, hfb]
      have hw := rel_o2mStep_write pl obj model om0 me oe hmo hme
        (hkeysa ▸ hndA) (hkeysa ▸ hnrA) (hkeysa ▸ hidB) hoe
        (hkeysb ▸ hndB) (hkeysb ▸ hnrB) (hkeysb ▸ hpm)
      rw [rel_o2mPass_not_mem pl (o2mStep pl obj model om0) rest model om0
        (List.nodup_cons.mp hnd).1, hw]
    · have hom' : om ∈ rest := by
        cases List.mem_cons.mp hom with
        | inl hh => exact absurd hh.symm h0
        | inr hh => exact hh
      refine ih (o2mStep pl obj model om0) (List.nodup_cons.mp hnd).2 hom' ?_ ?_
      · rw [fields_o2mStep]; exact hA
      · rw [fields_o2mStep]; exact hB

theorem rel_o2mPass_preserve_noidB (pl : String → String) (obj : Orm) (L : List String)
    (model targ : String) (FA : List (String × String))
    (hA : (getA obj model).map Entity.fields = some FA)
    (hno : ("id" ++ upperFirst targ) ∉ FA.map Prod.fst) :
    getRelation (addOneToManyRelations pl obj L model) model targ =
      getRelation obj model targ := by
  induction L generalizing obj with
  | nil => rfl
  | cons om0 rest ih =>
    unfold addOneToManyRelations
    by_cases h0 : om0 = targ
    · subst h0
      have hid : o2mStep pl obj model om0 = obj := by
        refine o2mStep_eq_self_of_noidB pl obj model om0 ?_
        intro me hme
        have : me.fields = FA := by
          rw [hme] at hA; simpa using hA
        rw [fieldKeys, this]
        exact hno
      rw [hid]
      exact ih obj hA
    · rw [ih (o2mStep pl obj model om0) (by rw [fields_o2mStep]; exact hA),
        rel_o2mStep_ne_target pl obj model om0 targ (fun hh => h0 hh.symm)]

theorem rel_o2mPass_preserve_inner (pl : String → String) (obj : Orm) (L : List String)
    (model targ : String) (FB : List (String × String))
    (hB : (getA obj targ).map Entity.fields = some FB)
    (hno : pl model ∉ FB.map Prod.fst) :
    getRelation (addOneToManyRelations pl obj L model) model targ =
      getRelation obj model targ := by
  induction L generalizing obj with
  | nil => rfl
  | cons om0 rest ih =>
    unfold addOneToManyRelations
    by_cases h0 : om0 = targ
    · subst h0
      have hid : o2mStep pl obj model om0 = obj := by
        refine o2mStep_eq_self_of_inner pl obj model om0 ?_
        intro oe hoe
        have : oe.fields = FB := by
          rw [hoe] at hB; simpa using hB
        rw [fieldKeys, this]
        exact hno
      rw [hid]
      exact ih obj hB
    · rw [ih (o2mStep pl obj model om0) (by rw [fields_o2mStep]; exact hB),
        rel_o2mStep_ne_target pl obj model om0 targ (fun hh => h0 hh.symm)]



theorem setA_of_getA_none {α : Type} (l : List (String × α)) (k : String) (v : α)
    (h : getA l k = none) : setA l k v = l ++ [(k, v)] := by
  induction l with
  | nil => rfl
  | cons p rest ih =>
    obtain ⟨k2, v2⟩ := p
    by_cases hk : k2 = k
    · simp [getA, hk] at h
    · simp only [getA, if_neg hk] at h
      simp [setA, hk, ih h]

theorem foldl_setA_eq_append {α : Type} (ps : List (String × α)) (acc : List (String × α))
    (hnd : (ps.map Prod.fst).Nodup) (hfresh : ∀ p ∈ ps, getA acc p.1 = none) :
    ps.foldl (fun a p => setA a p.1 p.2) acc = acc ++ ps := by
  induction ps generalizing acc with
  | nil => simp
  | cons p rest ih =>
    rw [List.map_cons] at hnd
    simp only [List.foldl_cons]
    rw [setA_of_getA_none acc p.1 p.2 (hfresh p (List.mem_cons_self p rest))]
    rw [ih (acc ++ [p]) (List.nodup_cons.mp hnd).2 ?_]
    · simp
    · intro q hq
      rw [getA_append]
      rw [hfresh q (List.mem_cons_of_mem p hq)]
      have hqp : ¬ p.1 = q.1 := by
        intro hh
        exact (List.nodup_cons.mp hnd).1 (hh ▸ List.mem_map_of_mem Prod.fst hq)
      simp [getA, hqp]

theorem buildFieldMap_eq_self (fs : List (String × String))
    (hnd : (fs.map Prod.fst).Nodup) : buildFieldMap fs = fs := by
  unfold buildFieldMap
  rw [foldl_setA_eq_append fs [] hnd (fun p _ => rfl)]
  simp

theorem buildEntity_eq (m : PModel) (hnd : (m.fields.map Prod.fst).Nodup) :
    buildEntity m = ⟨m.fields, none⟩ := by
  unfold buildEntity
  rw [buildFieldMap_eq_self m.fields hnd]

theorem buildBaseOrm_eq (s : Schema) (hname : ∀ m ∈ s, m.name ≠ "")
    (hnd : (s.map (fun m => lowerFirst m.name)).Nodup) :
    buildBaseOrm s = s.map (fun m => (lowerFirst m.name, buildEntity m)) := by
  unfold buildBaseOrm
  have step : ∀ (acc : List (String × Entity)),
      s.foldl
          (fun obj m => if m.name ≠ "" then setA obj (lowerFirst m.name) (buildEntity m)
            else obj) acc =
        (s.map (fun m => (lowerFirst m.name, buildEntity m))).foldl
          (fun a p => setA a p.1 p.2) acc := by
    induction s with
    | nil => intro acc; rfl
    | cons m rest ih =>
      intro acc
      simp only [List.foldl_cons, List.map_cons]
      rw [if_pos (hname m (List.mem_cons_self m rest))]
      refine ih (fun m2 hm2 => hname m2 (List.mem_cons_of_mem m hm2)) ?_ _
      have hnd2 := hnd
      rw [List.map_cons] at hnd2
      exact (List.nodup_cons.mp hnd2).2
  rw [step []]
  rw [foldl_setA_eq_append _ [] (by rw [List.map_map]; exact hnd) (fun p _ => rfl)]
  simp

theorem getA_map_pair (s : Schema) (A : PModel)
    (hnd : (s.map (fun m => lowerFirst m.name)).Nodup) (hA : A ∈ s) :
    getA (s.map (fun m => (lowerFirst m.name, buildEntity m))) (lowerFirst A.name) =
      some (buildEntity A) := by
  induction s with
  | nil => simp at hA
  | cons m rest ih =>
    rw [List.map_cons] at hnd
    simp only [List.map_cons]
    by_cases hk : lowerFirst m.name = lowerFirst A.name
    · have hmA : m = A ∨ A ∈ rest := by
        rcases List.mem_cons.mp hA with h1 | h1
        · exact Or.inl h1.symm
        · exact Or.inr h1
      rcases hmA with h1 | h1
      · subst h1
        simp [getA]
      · exfalso
        exact (List.nodup_cons.mp hnd).1
          (hk ▸ List.mem_map_of_mem (fun m => lowerFirst m.name) h1)
    · have hA' : A ∈ rest := by
        rcases List.mem_cons.mp hA with h1 | h1
        · exact absurd (congrArg (fun m => lowerFirst m.name) h1.symm) hk
        · exact h1
      simp only [getA, if_neg hk]
      exact ih (List.nodup_cons.mp hnd).2 hA'

theorem buildBaseOrm_keys (s : Schema) (hname : ∀ m ∈ s, m.name ≠ "")
    (hnd : (s.map (fun m => lowerFirst m.name)).Nodup) :
    (buildBaseOrm s).map Prod.fst = s.map (fun m => lowerFirst m.name) := by
  rw [buildBaseOrm_eq s hname hnd]
  simp

theorem getA_buildBaseOrm (s : Schema) (A : PModel) (hwf : SchemaWF s) (hA : A ∈ s) :
    getA (buildBaseOrm s) (lowerFirst A.name) = some ⟨A.fields, none⟩ := by
  rw [buildBaseOrm_eq s (fun m hm => (hwf.models m hm).nameNE) hwf.keysNodup,
    getA_map_pair s A hwf.keysNodup hA, buildEntity_eq A (hwf.models A hA).fieldsNodup]



theorem getA_inferLoop_not_mem (pl : String → String) (obj : Orm) (models iter : List String)
    (k : String) (hk : k ∉ iter) :
    getA (inferLoop pl obj models iter) k = getA obj k := by
  induction iter generalizing obj with
  | nil => rfl
  | cons m rest ih =>
    unfold inferLoop
    rw [ih _ (fun hh => hk (List.mem_cons_of_mem m hh)),
      getA_o2mPass_ne pl _ models m k (fun hh => hk (hh ▸ List.mem_cons_self m rest)),
      getA_m2mPass_ne pl obj models m k (fun hh => hk (hh ▸ List.mem_cons_self m rest))]

theorem fields_inferLoop (pl : String → String) (obj : Orm) (models iter : List String)
    (k : String) :
    (getA (inferLoop pl obj models iter) k).map Entity.fields =
      (getA obj k).map Entity.fields := by
  induction iter generalizing obj with
  | nil => rfl
  | cons m rest ih =>
    unfold inferLoop
    rw [ih _, fields_o2mPass, fields_m2mPass]

theorem rel_congr_of_getA (obj1 obj2 : Orm) (model targ : String)
    (h : getA obj1 model = getA obj2 model) :
    getRelation obj1 model targ = getRelation obj2 model targ := by
  unfold getRelation
  rw [h]

/-- Assembly for C3: at its own turn, the many-to-many pass records the
descriptor and — absent the one-to-many owning field — the one-to-many
pass leaves it; no other turn touches this entry. -/
theorem inferLoop_m2m (pl : String → String) (obj : Orm) (models iter : List String)
    (kA kB : String) (FA FB : List (String × String))
    (hnd : iter.Nodup) (hkA : kA ∈ iter) (hABne : kA ≠ kB)
    (hmodels : models.Nodup) (hkBL : kB ∈ models)
    (hA : getA obj kA = some ⟨FA, none⟩)
    (hB : (getA obj kB).map Entity.fields = some FB)
    (hc1 : typeTruthy FA (lowerFirst (pl kB)) = true)
    (hc2 : typeTruthy FB (lowerFirst (pl kA)) = true)
    (hr1 : lowerFirst (pl kB) ≠ "relations")
    (hr2 : lowerFirst (pl kA) ≠ "relations")
    (hnoidB : ("id" ++ upperFirst kB) ∉ FA.map Prod.fst) :
    getRelation (inferLoop pl obj models iter) kA kB = some (.manyToMany kB (pl kB)) := by
  induction iter generalizing obj with
  | nil => simp at hkA
  | cons m rest ih =>
    unfold inferLoop
    by_cases hm : m = kA
    · subst hm
      have hrest : m ∉ rest := (List.nodup_cons.mp hnd).1
      rw [rel_congr_of_getA _ _ m kB (getA_inferLoop_not_mem pl _ models rest m hrest)]
      have hm2m : getRelation (addManyToManyRelations pl obj models m) m kB =
          some (.manyToMany kB (pl kB)) :=
        rel_m2mPass_write pl obj models m kB FA FB hmodels hkBL hABne
          (by rw [hA]; rfl) hB hc1 hc2 hr1 hr2
      rw [rel_o2mPass_preserve_noidB pl _ models m kB FA
        (by rw [fields_m2mPass, hA]; rfl) hnoidB, hm2m]
    · have hkA' : kA ∈ rest := by
        cases List.mem_cons.mp hkA with
        | inl hh => exact absurd hh (fun h2 => hm h2.symm)
        | inr hh => exact hh
      refine ih _ (List.nodup_cons.mp hnd).2 hkA' ?_ ?_
      · rw [getA_o2mPass_ne pl _ models m kA (fun hh => hm hh.symm),
          getA_m2mPass_ne pl obj models m kA (fun hh => hm hh.symm)]
        exact hA
      · rw [fields_o2mPass, fields_m2mPass]
        exact hB

/-- Assembly for C4, positive direction: with the owning-field convention
satisfied on both sides, the one-to-many pass of the entity's own turn
records the descriptor (overwriting any many-to-many hit). -/
theorem inferLoop_o2m_write (pl : String → String) (obj : Orm) (models iter : List String)
    (kA kB : String) (FA FB : List (String × String))
    (hnd : iter.Nodup) (hkA : kA ∈ iter) (hABne : kA ≠ kB)
    (hmodels : models.Nodup) (hkBL : kB ∈ models)
    (hA : getA obj kA = some ⟨FA, none⟩)
    (hB : (getA obj kB).map Entity.fields = some FB)
    (hndA : (FA.map Prod.fst).Nodup) (hnrA : "relations" ∉ FA.map Prod.fst)
    (hidB : ("id" ++ upperFirst kB) ∈ FA.map Prod.fst)
    (hndB : (FB.map Prod.fst).Nodup) (hnrB : "relations" ∉ FB.map Prod.fst)
    (hpm : pl kA ∈ FB.map Prod.fst) :
    getRelation (inferLoop pl obj models iter) kA kB =
      some (.oneToMany kB ("id" ++ upperFirst kB)) := by
  induction iter generalizing obj with
  | nil => simp at hkA
  | cons m rest ih =>
    unfold inferLoop
    by_cases hm : m = kA
    · subst hm
      have hrest : m ∉ rest := (List.nodup_cons.mp hnd).1
      rw [rel_congr_of_getA _ _ m kB (getA_inferLoop_not_mem pl _ models rest m hrest)]
      exact rel_o2mPass_write pl _ models m kB FA FB hmodels hkBL hABne
        (by rw [fields_m2mPass, hA]; rfl)
        (by rw [fields_m2mPass]; exact hB) hndA hnrA hidB hndB hnrB hpm
    · have hkA' : kA ∈ rest := by
        cases List.mem_cons.mp hkA with
        | inl hh => exact absurd hh (fun h2 => hm h2.symm)
        | inr hh => exact hh
      refine ih _ (List.nodup_cons.mp hnd).2 hkA' ?_ ?_
      · rw [getA_o2mPass_ne pl _ models m kA (fun hh => hm hh.symm),
          getA_m2mPass_ne pl obj models m kA (fun hh => hm hh.symm)]
        exact hA
      · rw [fields_o2mPass, fields_m2mPass]
        exact hB

/-- Assembly for C4, negative direction: when the one-to-many naming
convention fails on either side, the final descriptor (if any) is not
one-to-many. -/
theorem inferLoop_o2m_sound (pl : String → String) (obj : Orm) (models iter : List String)
    (kA kB : String) (FA FB : List (String × String))
    (hnd : iter.Nodup) (hkA : kA ∈ iter)
    (hA : getA obj kA = some ⟨FA, none⟩)
    (hB : (getA obj kB).map Entity.fields = some FB)
    (hnot : ¬ (("id" ++ upperFirst kB) ∈ FA.map Prod.fst ∧ pl kA ∈ FB.map Prod.fst)) :
    isO2M (getRelation (inferLoop pl obj models iter) kA kB) = false := by
  induction iter generalizing obj with
  | nil => simp at hkA
  | cons m rest ih =>
    unfold inferLoop
    by_cases hm : m = kA
    · subst hm
      have hrest : m ∉ rest := (List.nodup_cons.mp hnd).1
      rw [rel_congr_of_getA _ _ m kB (getA_inferLoop_not_mem pl _ models rest m hrest)]
      have hbase : getRelation obj m kB = none := by
        rw [getRelation_of_getA obj m kB _ hA]
        rfl
      have hm2m : isO2M (getRelation (addManyToManyRelations pl obj models m) m kB) =
          false := by
        by_cases hsh : isO2M (getRelation (addManyToManyRelations pl obj models m) m kB) =
            true
        · have := rel_m2mPass_shape pl obj models m kB hsh
          rw [hbase] at this
          simp [isO2M] at this
        · simpa using hsh
      by_cases hcase : ("id" ++ upperFirst kB) ∈ FA.map Prod.fst
      · have hpm : pl m ∉ FB.map Prod.fst := fun hh => hnot ⟨hcase, hh⟩
        rw [rel_o2mPass_preserve_inner pl _ models m kB FB
          (by rw [fields_m2mPass]; exact hB) hpm]
        exact hm2m
      · rw [rel_o2mPass_preserve_noidB pl _ models m kB FA
          (by rw [fields_m2mPass, hA]; rfl) hcase]
        exact hm2m
    · have hkA' : kA ∈ rest := by
        cases List.mem_cons.mp hkA with
        | inl hh => exact absurd hh (fun h2 => hm h2.symm)
        | inr hh => exact hh
      refine ih _ (List.nodup_cons.mp hnd).2 hkA' ?_ ?_
      · rw [getA_o2mPass_ne pl _ models m kA (fun hh => hm hh.symm),
          getA_m2mPass_ne pl obj models m kA (fun hh => hm hh.symm)]
        exact hA
      · rw [fields_o2mPass, fields_m2mPass]
        exact hB



theorem typeTruthy_of_mem (fs : List (String × String)) (k : String)
    (hk : k ∈ fs.map Prod.fst) (hty : ∀ p ∈ fs, p.2 ≠ "") : typeTruthy fs k = true := by
  obtain ⟨v, hv, hmem⟩ := getA_mem_keys fs k hk
  unfold typeTruthy
  rw [hv]
  simpa using hty (k, v) hmem

/-- C3 (amended).  For every pair of distinct entities (A, B) of a
well-formed schema such that A's field map contains the pluralized
camel-cased name of B and B's field map contains the pluralized
camel-cased name of A — and provided neither side also satisfies the
one-to-many owning-field convention towards the other
(`id<Other>` declared), which would overwrite the descriptor — relation
inference records a many-to-many descriptor on A targeting B and on B
targeting A, each naming the other entity as target. -/
theorem c3_m2m_symmetric_amended (pl : String → String) (s : Schema) (A B : PModel) (hwf : SchemaWF s)
    (hA : A ∈ s) (hB : B ∈ s)
    (hABne : lowerFirst A.name ≠ lowerFirst B.name)
    (hpB : lowerFirst (pl (lowerFirst B.name)) ∈ A.fields.map Prod.fst)
    (hpA : lowerFirst (pl (lowerFirst A.name)) ∈ B.fields.map Prod.fst)
    (hnoA : ("id" ++ upperFirst (lowerFirst B.name)) ∉ A.fields.map Prod.fst)
    (hnoB : ("id" ++ upperFirst (lowerFirst A.name)) ∉ B.fields.map Prod.fst) :
    getRelation (generatePrismaOrmObject pl s) (lowerFirst A.name) (lowerFirst B.name) =
      some (.manyToMany (lowerFirst B.name) (pl (lowerFirst B.name))) ∧
    getRelation (generatePrismaOrmObject pl s) (lowerFirst B.name) (lowerFirst A.name) =
      some (.manyToMany (lowerFirst A.name) (pl (lowerFirst A.name))) := by
  have hG : generatePrismaOrmObject pl s =
      inferLoop pl (buildBaseOrm s) ((buildBaseOrm s).map Prod.fst)
        ((buildBaseOrm s).map Prod.fst) := rfl
  have hkeys : (buildBaseOrm s).map Prod.fst = s.map (fun m => lowerFirst m.name) :=
    buildBaseOrm_keys s (fun m hm => (hwf.models m hm).nameNE) hwf.keysNodup
  have hkAm : lowerFirst A.name ∈ s.map (fun m => lowerFirst m.name) :=
    List.mem_map_of_mem _ hA
  have hkBm : lowerFirst B.name ∈ s.map (fun m => lowerFirst m.name) :=
    List.mem_map_of_mem _ hB
  have hgA : getA (buildBaseOrm s) (lowerFirst A.name) = some ⟨A.fields, none⟩ :=
    getA_buildBaseOrm s A hwf hA
  have hgB : getA (buildBaseOrm s) (lowerFirst B.name) = some ⟨B.fields, none⟩ :=
    getA_buildBaseOrm s B hwf hB
  have wfA := hwf.models A hA
  have wfB := hwf.models B hB
  have hrB : lowerFirst (pl (lowerFirst B.name)) ≠ "relations" :=
    fun hh => wfA.noRelField (hh ▸ hpB)
  have hrA : lowerFirst (pl (lowerFirst A.name)) ≠ "relations" :=
    fun hh => wfB.noRelField (hh ▸ hpA)
  rw [hG, hkeys]
  constructor
  · exact inferLoop_m2m pl (buildBaseOrm s) _ _ (lowerFirst A.name) (lowerFirst B.name)
      A.fields B.fields hwf.keysNodup hkAm hABne hwf.keysNodup hkBm hgA
      (by rw [hgB]; rfl)
      (typeTruthy_of_mem A.fields _ hpB wfA.typesNE)
      (typeTruthy_of_mem B.fields _ hpA wfB.typesNE) hrB hrA hnoA
  · exact inferLoop_m2m pl (buildBaseOrm s) _ _ (lowerFirst B.name) (lowerFirst A.name)
      B.fields A.fields hwf.keysNodup hkBm (fun hh => hABne hh.symm) hwf.keysNodup hkAm hgB
      (by rw [hgA]; rfl)
      (typeTruthy_of_mem B.fields _ hpA wfB.typesNE)
      (typeTruthy_of_mem A.fields _ hpB wfA.typesNE) hrA hrB hnoB

/-- C4.  For all distinct entities A and B of a well-formed schema,
relation inference records a one-to-many descriptor on A targeting B —
with owning field `id` followed by B's capitalized name — if and only if
A's field map contains that literal field and B's field map contains the
pluralized form of A; when only one (or neither) of the two naming
conditions holds, no one-to-many relation is recorded on A for B. -/
theorem c4_o2m_iff (pl : String → String) (s : Schema) (A B : PModel) (hwf : SchemaWF s)
    (hA : A ∈ s) (hB : B ∈ s)
    (hABne : lowerFirst A.name ≠ lowerFirst B.name) :
    (isO2M (getRelation (generatePrismaOrmObject pl s) (lowerFirst A.name)
        (lowerFirst B.name)) = true ↔
      ("id" ++ upperFirst (lowerFirst B.name)) ∈ A.fields.map Prod.fst ∧
        pl (lowerFirst A.name) ∈ B.fields.map Prod.fst) ∧
    (("id" ++ upperFirst (lowerFirst B.name)) ∈ A.fields.map Prod.fst ∧
        pl (lowerFirst A.name) ∈ B.fields.map Prod.fst →
      getRelation (generatePrismaOrmObject pl s) (lowerFirst A.name) (lowerFirst B.name) =
        some (.oneToMany (lowerFirst B.name) ("id" ++ upperFirst (lowerFirst B.name)))) := by
  have hG : generatePrismaOrmObject pl s =
      inferLoop pl (buildBaseOrm s) ((buildBaseOrm s).map Prod.fst)
        ((buildBaseOrm s).map Prod.fst) := rfl
  have hkeys : (buildBaseOrm s).map Prod.fst = s.map (fun m => lowerFirst m.name) :=
    buildBaseOrm_keys s (fun m hm => (hwf.models m hm).nameNE) hwf.keysNodup
  have hkAm : lowerFirst A.name ∈ s.map (fun m => lowerFirst m.name) :=
    List.mem_map_of_mem _ hA
  have hkBm : lowerFirst B.name ∈ s.map (fun m => lowerFirst m.name) :=
    List.mem_map_of_mem _ hB
  have hgA : getA (buildBaseOrm s) (lowerFirst A.name) = some ⟨A.fields, none⟩ :=
    getA_buildBaseOrm s A hwf hA
  have hgB : getA (buildBaseOrm s) (lowerFirst B.name) = some ⟨B.fields, none⟩ :=
    getA_buildBaseOrm s B hwf hB
  have wfA := hwf.models A hA
  have wfB := hwf.models B hB
  have hwrite : ("id" ++ upperFirst (lowerFirst B.name)) ∈ A.fields.map Prod.fst ∧
      pl (lowerFirst A.name) ∈ B.fields.map Prod.fst →
      getRelation (generatePrismaOrmObject pl s) (lowerFirst A.name) (lowerFirst B.name) =
        some (.oneToMany (lowerFirst B.name) ("id" ++ upperFirst (lowerFirst B.name))) := by
    rintro ⟨h1, h2⟩
    rw [hG, hkeys]
    exact inferLoop_o2m_write pl (buildBaseOrm s) _ _ (lowerFirst A.name)
      (lowerFirst B.name) A.fields B.fields hwf.keysNodup hkAm hABne hwf.keysNodup hkBm
      hgA (by rw [hgB]; rfl) wfA.fieldsNodup wfA.noRelField h1 wfB.fieldsNodup
      wfB.noRelField h2
  refine ⟨⟨?_, ?_⟩, hwrite⟩
  · intro hiso
    by_contra hnot
    have hsound := inferLoop_o2m_sound pl (buildBaseOrm s) ((buildBaseOrm s).map Prod.fst)
      ((buildBaseOrm s).map Prod.fst) (lowerFirst A.name) (lowerFirst B.name) A.fields
      B.fields (by rw [hkeys]; exact hwf.keysNodup) (by rw [hkeys]; exact hkAm) hgA
      (by rw [hgB]; rfl) hnot
    rw [hG] at hiso
    rw [hsound] at hiso
    cases hiso
  · intro hcond
    rw [hwrite hcond]
    rfl

theorem postTagSchemaWF : SchemaWF postTagSchema := by
  refine ⟨?_, by decide⟩
  intro m hm
  simp only [postTagSchema, List.mem_cons, List.mem_singleton, List.not_mem_nil,
    or_false] at hm
  rcases hm with rfl | rfl
  · exact ⟨by decide, by decide, by decide, by decide⟩
  · exact ⟨by decide, by decide, by decide, by decide⟩

theorem userTeamSchemaWF : SchemaWF userTeamSchema := by
  refine ⟨?_, by decide⟩
  intro m hm
  simp only [userTeamSchema, List.mem_cons, List.mem_singleton, List.not_mem_nil,
    or_false] at hm
  rcases hm with rfl | rfl
  · exact ⟨by decide, by decide, by decide, by decide⟩
  · exact ⟨by decide, by decide, by decide, by decide⟩

/-- C3 (counterexample).  The claim quantifies over every pair with the
mutual pluralized fields and nothing more; but when the owning entity
*also* declares the one-to-many owning field (here `user` declares both
`teams` and `idTeam`, and `team` declares `users`, so both naming
conventions hold simultaneously), the one-to-many pass runs after the
many-to-many pass and silently overwrites the descriptor: the final
relation recorded on `user` for `team` is one-to-many, not the claimed
many-to-many. -/
theorem c3_m2m_counterexample :
    lowerFirst (plS "team") ∈ ([("teams", "Team"), ("idTeam", "Int")] :
        List (String × String)).map Prod.fst ∧
    lowerFirst (plS "user") ∈ ([("users", "User")] : List (String × String)).map Prod.fst ∧
    getRelation userTeamOverlapOrm "user" "team" = some (.oneToMany "team" "idTeam") ∧
    (∀ p, getRelation userTeamOverlapOrm "user" "team" ≠ some (.manyToMany "team" p)) := by
  refine ⟨by decide, by decide, rfl, fun p h => ?_⟩
  rw [show getRelation userTeamOverlapOrm "user" "team" =
    some (.oneToMany "team" "idTeam") from rfl] at h
  simp at h

/-- C3 (witness): on the `post`/`tag` schema with mutual pluralized
fields and no owning-field collision, both many-to-many descriptors are
recorded. -/
theorem c3_m2m_witness :
    getRelation (generatePrismaOrmObject plS postTagSchema) "post" "tag" =
      some (.manyToMany "tag" "tags") ∧
    getRelation (generatePrismaOrmObject plS postTagSchema) "tag" "post" =
      some (.manyToMany "post" "posts") :=
  c3_m2m_symmetric_amended plS postTagSchema
    ⟨"post", [("id", "Int"), ("title", "String"), ("tags", "Tag")]⟩
    ⟨"tag", [("id", "Int"), ("posts", "Post")]⟩ postTagSchemaWF (by decide) (by decide)
    (by decide) (by decide) (by decide) (by decide) (by decide)

/-- C4 (witness): on the `user`/`team` schema, `user.idTeam` together
with `team.users` yields the one-to-many descriptor keyed by `idTeam`. -/
theorem c4_o2m_witness :
    getRelation (generatePrismaOrmObject plS userTeamSchema) "user" "team" =
      some (.oneToMany "team" "idTeam") :=
  (c4_o2m_iff plS userTeamSchema ⟨"user", [("name", "String"), ("idTeam", "Int")]⟩
      ⟨"team", [("users", "User")]⟩ userTeamSchemaWF (by decide) (by decide) (by decide)).2
    ⟨by decide, by decide⟩

end Primate
